import Mathlib

/-!
# Verification of the SignalWatchUK Director Network Discovery Engine

A shallow embedding of `src/core/rate_limiter.py` and `src/network_scanner.py`,
together with proofs (and refutations) of the specification claims about them.

Modelling conventions:
* Python machine floats from `time.time()` are idealised as elements of an
  arbitrary linearly ordered additive commutative group (only `+`, `-` and
  comparisons are used; `ℚ` and `ℤ` are instances); `time.sleep(s)` is idealised
  as advancing the clock by exactly `s`.
* Python string operations `.upper()` and `.split(sep)` are modelled by
  structural recursion over the string's character list.
* Python exceptions raised by the Companies House API client are modelled as
  `Except String` results of the facade calls; a raised exception is an `.error`.
* Python `dict.get(key)` / `dict.get(key, default)` on JSON-shaped data is modelled
  with `Option` fields (`none` = key absent) and `Option.getD`.
* Python dicts keep insertion order; they are modelled as association lists with
  an insertion-ordered `setKey` update.
* Python `set` objects are modelled as duplicate-free lists (`addSet`).
-/

namespace SignalWatch

/-! ## Rate limiter (`src/core/rate_limiter.py`)

`RateLimiter.acquire` under the instance lock: prune timestamps strictly older
than `now - period`, sleep until the oldest recorded timestamp expires when the
window is full, then record the request. -/

structure RateLimiter (α : Type) where
  max_requests : ℕ
  period : α
  requests : List α
deriving DecidableEq

variable {α : Type} [LinearOrderedAddCommGroup α]

/-- The lazy prune loop `while self.requests and self.requests[0] < now - self.period:
self.requests.popleft()`.  The loop inspects only the head of the deque, which is
exactly `List.dropWhile`. -/
def pruneReqs (period now : α) (l : List α) : List α :=
  l.dropWhile (fun t => t < now - period)

/-- `RateLimiter.acquire`, idealised to exact time.  The argument `now` is the value
of `time.time()` observed on entry; the result is the new limiter state and the
grant timestamp that is recorded (the value of `now` at the moment of
`self.requests.append(now)`).  Returns `none` when the Python code would raise
`IndexError` (`self.requests[0]` on an empty deque, possible only when
`max_requests = 0`). -/
def rlAcquire (rl : RateLimiter α) (now : α) : Option (RateLimiter α × α) :=
  let reqs := pruneReqs rl.period now rl.requests
  if rl.max_requests ≤ reqs.length then
    match reqs with
    | [] => none
    | h :: _ =>
      let sleep_time := h + rl.period - now
      if 0 < sleep_time then
        -- time.sleep(sleep_time); now = time.time(); prune again
        let now2 := h + rl.period
        let reqs2 := pruneReqs rl.period now2 reqs
        some ({ rl with requests := reqs2 ++ [now2] }, now2)
      else
        some ({ rl with requests := reqs ++ [now] }, now)
  else
    some ({ rl with requests := reqs ++ [now] }, now)

/-- Run a sequence of `acquire()` calls; `arrivals` are the successive values of
`time.time()` observed on entry to each call.  Returns the final limiter state and
the list of grant timestamps. -/
def rlRun (rl : RateLimiter α) : List α → Option (RateLimiter α × List α)
  | [] => some (rl, [])
  | t :: ts =>
    match rlAcquire rl t with
    | none => none
    | some (rl', g) =>
      match rlRun rl' ts with
      | none => none
      | some (rl'', gs) => some (rl'', g :: gs)

/-- Number of grant timestamps lying in the half-open sliding window `[a, a + period)`. -/
def grantsInWindow (period : α) (gs : List α) (a : α) : ℕ :=
  (gs.filter (fun g => a ≤ g ∧ g < a + period)).length

/-- Hypotheses under which the sliding-window property is provable: each call's
observed arrival time is at least every previously granted timestamp (the lock
serialises the calls and the clock is monotone) and never falls exactly at the
expiry boundary `g + period` of a previously granted timestamp `g` (the strict
`<` in the prune loop keeps a timestamp that is exactly `period` old).
`gs` accumulates the grants made so far. -/
def arrOK (rl : RateLimiter α) (gs : List α) : List α → Bool
  | [] => true
  | t :: ts =>
    (gs.all (fun g => decide (g ≤ t) && decide (t ≠ g + rl.period))) &&
      (match rlAcquire rl t with
       | none => false
       | some (rl', g) => arrOK rl' (gs ++ [g]) ts)

/-- Invariant tying the grant history `gs` (in grant order) to the limiter
state: the deque is a suffix of the sorted grant history, the pruned prefix is
stale (strictly older than some grant minus the period), the deque holds at
most `maxR` timestamps newer than `u - period` for any upper bound `u` of the
grants, and grants `maxR` apart in the history are at least `period` apart. -/
structure RLInv (maxR : ℕ) (period : α) (gs : List α) (rl : RateLimiter α) : Prop where
  maxEq : rl.max_requests = maxR
  perEq : rl.period = period
  sorted : gs.Pairwise (· ≤ ·)
  isDrop : ∃ m, m ≤ gs.length ∧ rl.requests = gs.drop m ∧
    ∀ g ∈ gs.take m, ∃ G ∈ gs, g < G - period
  boundCnt : ∀ u : α, (∀ g ∈ gs, g ≤ u) →
    rl.requests.countP (fun x => decide (u - period < x)) ≤ maxR
  spaced : ∀ (i j : ℕ) (hi : i < gs.length) (hj : j < gs.length),
    i + maxR ≤ j → gs.get ⟨i, hi⟩ + period ≤ gs.get ⟨j, hj⟩

/-! ## Data model for the network scanner (`src/network_scanner.py`)

The Companies House client is out of scope (spec §1); the scanner consumes it as
a facade of four blocking calls that may fail. -/

/-- Result of `get_company_profile` (a JSON dict; modelled fields are the ones read). -/
structure Profile where
  company_name : Option String
  company_status : Option String
  type : Option String
  date_of_creation : Option String
deriving DecidableEq

/-- One element of the `get_officers` list. -/
structure Officer where
  name : Option String
  officer_role : Option String
  appointed_on : Option String
  resigned_on : Option String
  date_of_birth : Option String
deriving DecidableEq

/-- One element of the `search_officers` result list; `links_self` is
`item.get('links', {}).get('self', '')` before the `''` default. -/
structure SearchResult where
  title : Option String
  links_self : Option String
deriving DecidableEq

/-- One element of the `get_officer_appointments` list. -/
structure ApptRec where
  appointed_to_company_number : Option String
  resigned_on : Option String
  appointed_to_company_status : Option String
deriving DecidableEq

/-- The `CompaniesHouseClient` facade.  Each call either returns a value or raises
(`.error` carries `str(e)`). -/
structure Facade where
  get_company_profile : String → Except String Profile
  get_officers : String → Except String (List Officer)
  search_officers : String → Except String (List SearchResult)
  get_officer_appointments : String → Except String (List ApptRec)

/-- The keyword-only arguments of `scan_network`. -/
structure Config where
  max_depth : ℕ
  max_companies : ℕ
  active_only : Bool
deriving DecidableEq

/-- Value stored in `network['companies'][company_number]`. -/
structure CompanyNode where
  company_number : String
  company_name : Option String
  company_status : Option String
  company_type : Option String
  incorporation_date : Option String
  depth : ℕ
  officer_count : ℕ
deriving DecidableEq

/-- One element of a director's `appointments` list. -/
structure Appt where
  company_number : String
  company_name : Option String
  role : String
  appointed_on : Option String
  resigned_on : Option String
  date_of_birth : Option String
deriving DecidableEq

/-- Value stored in `network['directors'][officer_id]`. -/
structure DirectorRec where
  name : String
  appointments : List Appt
  company_count : ℕ
deriving DecidableEq

/-- One element of `network['connections']`. -/
structure Connection where
  company_number : String
  company_name : Option String
  director_id : String
  director_name : String
  role : String
  depth : ℕ
deriving DecidableEq

structure Statistics where
  total_companies : ℕ
  total_directors : ℕ
  total_connections : ℕ
  depth_reached : ℕ
deriving DecidableEq

/-- The network snapshot returned by `scan_network`. -/
structure Network where
  seed_companies : List String
  max_depth : ℕ
  companies : List (String × CompanyNode)
  directors : List (String × DirectorRec)
  connections : List Connection
  statistics : Statistics
deriving DecidableEq

/-- Ghost trace of the crawl: one `dequeued` per `companies_to_scan.pop(0)`, one
`recorded` per `network['companies'][...] = ...`, one `enqueued` per
`companies_to_scan.append(...)` (seeds count as depth-0 enqueues). -/
inductive Event where
  | dequeued (company : String) (depth : ℕ)
  | recorded (company : String) (depth : ℕ)
  | enqueued (company : String) (depth : ℕ)
deriving DecidableEq

/-- Python dict insertion-order lookup. -/
def getKey? {α : Type} : List (String × α) → String → Option α
  | [], _ => none
  | (k', v) :: rest, k => if k' = k then some v else getKey? rest k

/-- Python dict insertion-order assignment `m[k] = v`. -/
def setKey {α : Type} : List (String × α) → String → α → List (String × α)
  | [], k, v => [(k, v)]
  | (k', v') :: rest, k, v =>
    if k' = k then (k, v) :: rest else (k', v') :: setKey rest k v

/-- Python `set.add`. -/
def addSet (s : List String) (x : String) : List String :=
  if x ∈ s then s else s ++ [x]

/-- Python truthiness of a maybe-missing string value (`None` and `''` are falsy). -/
def truthyOS : Option String → Bool
  | none => false
  | some s => s ≠ ""

/-- Python `str.upper()` (character-wise, structural). -/
def upcase (s : String) : String :=
  ⟨s.data.map Char.toUpper⟩

/-- Does `pat` occur at the start of `hay`? -/
def charsStartWith : List Char → List Char → Bool
  | _, [] => true
  | [], _ :: _ => false
  | c :: cs, p :: ps => c == p && charsStartWith cs ps

/-- Does `pat` occur anywhere in the haystack? -/
def charsContain (pat : List Char) : List Char → Bool
  | [] => charsStartWith [] pat
  | c :: t => charsStartWith (c :: t) pat || charsContain pat t

/-- Python `pat in s` (substring test). -/
def containsSub (s pat : String) : Bool :=
  charsContain pat.data s.data

/-- Python `s.split(sep)` for a one-character separator. -/
def splitCharList (sep : Char) : List Char → List (List Char)
  | [] => [[]]
  | c :: rest =>
    if c == sep then [] :: splitCharList sep rest
    else
      match splitCharList sep rest with
      | [] => [[c]]
      | h :: t => (c :: h) :: t

/-- Python `match_id.split('/')`. -/
def splitSlash (s : String) : List String :=
  (splitCharList (Char.ofNat 47) s.data).map String.mk

/-- Line 151: `any(keyword in officer_name.upper() for keyword in [...])`. -/
def isCorporateName (officer_name : String) : Bool :=
  ["LIMITED", "LTD", "PLC", "LLP", "COMPANY", "CORPORATE"].any
    (fun kw => containsSub (upcase officer_name) kw)

/-- Line 108: `f"{officer_name}_{officer.get('appointed_on', '')}"`. -/
def officerId (o : Officer) : String :=
  o.name.getD "" ++ "_" ++ o.appointed_on.getD ""

/-- Lines 159–170: scan the top five results for a case-insensitive exact title
match; otherwise fall back to the first result. -/
def selectBestMatch (officer_name : String) (results : List SearchResult) :
    Option SearchResult :=
  match (results.take 5).find?
      (fun r => upcase (r.title.getD "") == upcase officer_name) with
  | some r => some r
  | none => results.head?

/-- Full crawl state: the frontier queue, the two visited sets on `self`, the
snapshot under construction, and the ghost event trace. -/
structure ScanState where
  frontier : List (String × ℕ)
  scanned_companies : List String
  scanned_officers : List String
  companies : List (String × CompanyNode)
  directors : List (String × DirectorRec)
  connections : List Connection
  depth_reached : ℕ
  events : List Event
deriving DecidableEq

/-- Lines 185–202: one iteration of the appointment loop.  Skips appointments
with no (or falsy) target company, targets already scanned, and — under
`active_only` — resigned appointments and non-active target companies; otherwise
appends `(target, depth + 1)` to the frontier. -/
def apptStep (cfg : Config) (newDepth : ℕ) (st : ScanState) (a : ApptRec) :
    ScanState :=
  let cnum := a.appointed_to_company_number.getD ""
  if cnum = "" ∨ cnum ∈ st.scanned_companies then st
  else if cfg.active_only && truthyOS a.resigned_on then st
  else if cfg.active_only && !(a.appointed_to_company_status == some "active") then st
  else
    { st with
      frontier := st.frontier ++ [(cnum, newDepth)],
      events := st.events ++ [.enqueued cnum newDepth] }

/-- Line 152 / line 208: `self.scanned_officers.add(officer_id)`. -/
def markOfficer (oid : String) (st : ScanState) : ScanState :=
  { st with scanned_officers := addSet st.scanned_officers oid }

/-- Lines 149–213: the officer fan-out, i.e. the body of the
`try ... except` at officer level.  Exceptions raised by `search_officers` and
the `IndexError` from `match_id.split('/')[-2]` reach the officer-level handler
*before* line 208, leaving the officer unmarked; all other paths mark it. -/
def officerSearchPhase (f : Facade) (cfg : Config) (oid officer_name : String)
    (depth : ℕ) (st : ScanState) : ScanState :=
  if isCorporateName officer_name then markOfficer oid st
  else
    match f.search_officers officer_name with
    | .error _ => st
    | .ok results =>
      if results.isEmpty then markOfficer oid st
      else
        match selectBestMatch officer_name results with
        | none => markOfficer oid st
        | some r =>
          let match_id := r.links_self.getD ""
          if match_id = "" then markOfficer oid st
          else
            let parts := splitSlash match_id
            if parts.length < 2 then st  -- IndexError from parts[-2]
            else
              let officer_api_id := parts.getD (parts.length - 2) ""
              match f.get_officer_appointments officer_api_id with
              | .error _ => markOfficer oid st  -- caught at line 203, then marked
              | .ok appts =>
                markOfficer oid (appts.foldl (apptStep cfg (depth + 1)) st)

/-- Lines 105–145: record one (already filtered) officer of the company `c`
being expanded: update the directors map and append the connection. -/
def officerRecordPhase (c : String) (profile_name : Option String) (depth : ℕ)
    (st : ScanState) (o : Officer) : ScanState :=
  let officer_name := o.name.getD ""
  let officer_role := o.officer_role.getD ""
  let oid := officerId o
  let dir := (getKey? st.directors oid).getD ⟨officer_name, [], 0⟩
  let appt : Appt :=
    ⟨c, profile_name, officer_role, o.appointed_on, o.resigned_on, o.date_of_birth⟩
  let dir2 := { dir with appointments := dir.appointments ++ [appt] }
  let dir3 := { dir2 with company_count := dir2.appointments.length }
  { st with
    directors := setKey st.directors oid dir3,
    connections :=
      st.connections ++ [⟨c, profile_name, oid, officer_name, officer_role, depth⟩] }

/-- Lines 105–213: process one (already filtered) officer of the company
`c` being expanded: update the directors map, append the connection, and — when
`depth < max_depth` and the identity was not searched yet — run the fan-out. -/
def processOfficer (f : Facade) (cfg : Config) (c : String)
    (profile_name : Option String) (depth : ℕ) (st : ScanState) (o : Officer) :
    ScanState :=
  let st1 := officerRecordPhase c profile_name depth st o
  if depth < cfg.max_depth ∧ officerId o ∉ st1.scanned_officers then
    officerSearchPhase f cfg (officerId o) (o.name.getD "") depth st1
  else st1

/-- Lines 70–216: expand one dequeued `(company_number, depth)` item.  Any
exception from `get_company_profile` / `get_officers`, and the `active_only`
status skip, leave the state unchanged (the outer handler just logs);
otherwise the company node is recorded, the visited set and `depth_reached`
updated, and every filtered officer processed. -/
def expandCompany (f : Facade) (cfg : Config) (c : String) (depth : ℕ)
    (st : ScanState) : ScanState :=
  match f.get_company_profile c with
  | .error _ => st
  | .ok profile =>
    if cfg.active_only && !(profile.company_status == some "active") then st
    else
      match f.get_officers c with
      | .error _ => st
      | .ok officers0 =>
        let officers :=
          if cfg.active_only then officers0.filter (fun o => !truthyOS o.resigned_on)
          else officers0
        let node : CompanyNode :=
          ⟨c, profile.company_name, profile.company_status, profile.type,
            profile.date_of_creation, depth, officers.length⟩
        let st :=
          { st with
            companies := setKey st.companies c node,
            scanned_companies := addSet st.scanned_companies c,
            depth_reached := max st.depth_reached depth,
            events := st.events ++ [.recorded c depth] }
        officers.foldl (processOfficer f cfg c profile.company_name depth) st

/-- One iteration of the `while companies_to_scan and len(self.scanned_companies)
< max_companies` loop; `none` means the loop exits. -/
def scanStep (f : Facade) (cfg : Config) (st : ScanState) : Option ScanState :=
  match st.frontier with
  | [] => none
  | (c, depth) :: rest =>
    if cfg.max_companies ≤ st.scanned_companies.length then none
    else
      let st := { st with frontier := rest, events := st.events ++ [.dequeued c depth] }
      if c ∈ st.scanned_companies ∨ cfg.max_depth < depth then some st
      else some (expandCompany f cfg c depth st)

/-- The crawl loop, fuelled (the Python loop always terminates because every
expansion enqueues finitely many items and at most `max_companies` expansions
happen; running out of fuel returns the state reached so far, so quantifying
over all fuels covers every point during and after the crawl). -/
def scanLoop (f : Facade) (cfg : Config) : ℕ → ScanState → ScanState
  | 0, st => st
  | n + 1, st =>
    match scanStep f cfg st with
    | none => st
    | some st' => scanLoop f cfg n st'

/-- Lines 54–59: fresh visited sets and the seed frontier. -/
def initState (seeds : List String) : ScanState :=
  { frontier := seeds.map (fun s => (s, 0)),
    scanned_companies := [], scanned_officers := [],
    companies := [], directors := [], connections := [], depth_reached := 0,
    events := seeds.map (fun s => .enqueued s 0) }

/-- State after running the crawl loop on the seeds. -/
def scanNetworkState (f : Facade) (cfg : Config) (seeds : List String) (fuel : ℕ) :
    ScanState :=
  scanLoop f cfg fuel (initState seeds)

/-- Lines 40–52 and 218–223: assemble the returned snapshot; statistics are
plain counts over the finished structures. -/
def toNetwork (seeds : List String) (cfg : Config) (st : ScanState) : Network :=
  { seed_companies := seeds,
    max_depth := cfg.max_depth,
    companies := st.companies,
    directors := st.directors,
    connections := st.connections,
    statistics :=
      ⟨st.companies.length, st.directors.length, st.connections.length,
        st.depth_reached⟩ }

/-- The mutable per-instance tracking state of `NetworkScanner` (the API client
is passed separately as the facade). -/
structure Scanner where
  scanned_companies : List String
  scanned_officers : List String
deriving DecidableEq

/-- `NetworkScanner.scan_network`: resets `self.scanned_companies` and
`self.scanned_officers` (lines 54–56) — discarding whatever an earlier call left
in `self` — runs the crawl, and returns the snapshot together with the updated
instance state. -/
def scan_network (f : Facade) (self : Scanner) (seeds : List String) (cfg : Config)
    (fuel : ℕ) : Scanner × Network :=
  let st := scanLoop f cfg fuel (initState seeds)
  (⟨st.scanned_companies, st.scanned_officers⟩, toNetwork seeds cfg st)

/-! ## Post-analysis: `find_company_clusters` (lines 258–307) -/

/-- `graph[a].add(b)` on the `defaultdict(set)` adjacency structure (the set is
modelled as a duplicate-free insertion-ordered list). -/
def addEdge (g : List (String × List String)) (a b : String) :
    List (String × List String) :=
  let cur := (getKey? g a).getD []
  setKey g a (if b ∈ cur then cur else cur ++ [b])

/-- Lines 269–284: for every connection, link its company to every company
sharing the same `director_id` (self-edges excluded). -/
def buildGraph (conns : List Connection) : List (String × List String) :=
  conns.foldl
    (fun g conn =>
      let related :=
        (conns.filter (fun c2 => c2.director_id == conn.director_id)).map
          (fun c2 => c2.company_number)
      related.foldl
        (fun g r => if r = conn.company_number then g else addEdge g conn.company_number r)
        g)
    []

def neighborsOf (g : List (String × List String)) (n : String) : List String :=
  (getKey? g n).getD []

/-- Lines 290–295: the depth-first traversal, with the implicit call stack made
explicit (spec §9 note); the traversal order over Python's unordered neighbor
sets is taken to be adjacency-list order.  Fuelled; the cluster is the list of
nodes first visited during this traversal. -/
def dfsStack (g : List (String × List String)) :
    ℕ → List String → List String → List String → List String × List String
  | 0, _, visited, cluster => (visited, cluster)
  | _ + 1, [], visited, cluster => (visited, cluster)
  | fuel + 1, n :: rest, visited, cluster =>
    if n ∈ visited then dfsStack g fuel rest visited cluster
    else dfsStack g fuel (neighborsOf g n ++ rest) (visited ++ [n]) (cluster ++ [n])

def totalAdj (g : List (String × List String)) : ℕ :=
  (g.map (fun kv => kv.2.length)).sum

/-- Lines 287–302: connected components in discovery order (iterating the
`companies` dict), keeping only clusters with more than one company. -/
def discoveredClusters (net : Network) : List (List String) :=
  let g := buildGraph net.connections
  let fuel := totalAdj g + net.companies.length + 1
  (net.companies.foldl
    (fun (acc : List String × List (List String)) kv =>
      if kv.1 ∈ acc.1 then acc
      else
        let vc := dfsStack g fuel [kv.1] acc.1 []
        if 1 < vc.2.length then (vc.1, acc.2 ++ [vc.2]) else (vc.1, acc.2))
    ([], [])).2

/-- Stable insertion of a cluster into a size-descending sorted list: the new
cluster goes in front of the first cluster that is not strictly larger, so that
among equal sizes earlier-discovered clusters stay first. -/
def insertClusterDesc (x : List String) : List (List String) → List (List String)
  | [] => [x]
  | y :: t => if y.length ≤ x.length then x :: y :: t else y :: insertClusterDesc x t

/-- Line 305: `clusters.sort(key=len, reverse=True)` — Python's stable sort,
modelled extensionally by a stable insertion sort (both produce the unique
size-descending permutation that keeps equal-sized clusters in input order). -/
def sortClustersDesc (l : List (List String)) : List (List String) :=
  l.foldr insertClusterDesc []

/-- `NetworkScanner.find_company_clusters`. -/
def find_company_clusters (net : Network) : List (List String) :=
  sortClustersDesc (discoveredClusters net)

/-- The shared-director adjacency relation of the claim: two distinct companies
are adjacent iff some director identity has a connection to both. -/
def sharesDirector (conns : List Connection) (a b : String) : Prop :=
  a ≠ b ∧ ∃ d,
    (∃ c1 ∈ conns, c1.company_number = a ∧ c1.director_id = d) ∧
    (∃ c2 ∈ conns, c2.company_number = b ∧ c2.director_id = d)

/-! ## The spec's static officer-hop distance (for claim C1)

The following definitions follow the *spec's* words — "the minimum number of
officer hops from any seed company" — rather than the crawl's dynamic state:
one officer hop goes from an expandable company to any appointment target of a
best-match search of any of its (filtered) officers, with no visited-set
suppression. -/

/-- One officer's static fan-out targets (same facade calls and filters as the
crawler, but independent of the visited sets). -/
def officerHopTargets (f : Facade) (cfg : Config) (o : Officer) : List String :=
  let officer_name := o.name.getD ""
  if isCorporateName officer_name then []
  else
    match f.search_officers officer_name with
    | .error _ => []
    | .ok results =>
      if results.isEmpty then []
      else
        match selectBestMatch officer_name results with
        | none => []
        | some r =>
          let match_id := r.links_self.getD ""
          if match_id = "" then []
          else
            let parts := splitSlash match_id
            if parts.length < 2 then []
            else
              match f.get_officer_appointments (parts.getD (parts.length - 2) "") with
              | .error _ => []
              | .ok appts =>
                appts.filterMap (fun a =>
                  let cnum := a.appointed_to_company_number.getD ""
                  if cnum = "" then none
                  else if cfg.active_only && truthyOS a.resigned_on then none
                  else if cfg.active_only &&
                      !(a.appointed_to_company_status == some "active") then none
                  else some cnum)

/-- All companies one officer hop away from `c` (empty when `c` itself cannot be
expanded). -/
def hopTargets (f : Facade) (cfg : Config) (c : String) : List String :=
  match f.get_company_profile c with
  | .error _ => []
  | .ok profile =>
    if cfg.active_only && !(profile.company_status == some "active") then []
    else
      match f.get_officers c with
      | .error _ => []
      | .ok officers0 =>
        let officers :=
          if cfg.active_only then officers0.filter (fun o => !truthyOS o.resigned_on)
          else officers0
        (officers.map (officerHopTargets f cfg)).flatten

/-- Companies reachable from the seeds within `k` officer hops (a hop out of a
company at distance `i` requires `i < max_depth`, matching the crawler's
fan-out gate). -/
def reachWithin (f : Facade) (cfg : Config) (seeds : List String) : ℕ → List String
  | 0 => seeds
  | k + 1 =>
    let prev := reachWithin f cfg seeds k
    if k < cfg.max_depth then prev ++ (prev.map (hopTargets f cfg)).flatten else prev

/-- The minimum number of officer hops from any seed company to `c` (at most
`max_depth` hops are possible, so the search range is complete). -/
def specMinOfficerHops (f : Facade) (cfg : Config) (seeds : List String)
    (c : String) : Option ℕ :=
  (List.range (cfg.max_depth + 1)).find? (fun k => c ∈ reachWithin f cfg seeds k)

/-! ## Derived predicates on the crawl -/

/-- A company can be expanded: profile fetch succeeds, the `active_only` status
check passes, and the officers fetch succeeds (lines 72–79). -/
def eligible (f : Facade) (cfg : Config) (c : String) : Bool :=
  match f.get_company_profile c with
  | .error _ => false
  | .ok profile =>
    if cfg.active_only && !(profile.company_status == some "active") then false
    else
      match f.get_officers c with
      | .error _ => false
      | .ok _ => true

/-- Is this event a `recorded` event for company `c`? -/
def isRecordOf (c : String) : Event → Bool
  | .recorded c' _ => c' == c
  | _ => false

/-- The depths of the dequeue events, in order. -/
def deqDepths (events : List Event) : List ℕ :=
  events.filterMap (fun e =>
    match e with
    | .dequeued _ d => some d
    | _ => none)

/-- Crawl-state invariant, established by `initState` and preserved by
`scanStep`.  The fields bundle everything the claims need: the FIFO frontier is
sorted by depth with spread at most one, the companies map mirrors the visited
set and stays under the cap, connections agree with the recorded nodes,
the ghost events tie recorded depths to enqueue/dequeue history, and every
recorded company is eligible. -/
structure ScanInv (f : Facade) (cfg : Config) (seeds : List String)
    (st : ScanState) : Prop where
  frontierSorted : st.frontier.Pairwise (fun x y => x.2 ≤ y.2)
  frontierClose : ∀ x ∈ st.frontier, ∀ y ∈ st.frontier, x.2 ≤ y.2 + 1
  keysEq : st.companies.map Prod.fst = st.scanned_companies
  cmpBound : st.scanned_companies.length ≤ cfg.max_companies
  connDepth : ∀ conn ∈ st.connections, ∃ node,
    getKey? st.companies conn.company_number = some node ∧ node.depth = conn.depth
  recMap : ∀ c d, Event.recorded c d ∈ st.events ↔
    ∃ node, getKey? st.companies c = some node ∧ node.depth = d
  recOnce : ∀ c, st.events.countP (fun e => isRecordOf c e) ≤ 1
  deqElig : ∀ c d, Event.dequeued c d ∈ st.events →
    c ∈ st.scanned_companies ∨ cfg.max_depth < d ∨ eligible f cfg c = false
  queueCount : ∀ c d, st.events.count (Event.enqueued c d) =
    st.events.count (Event.dequeued c d) + st.frontier.count (c, d)
  recFrontier : ∀ c d, Event.recorded c d ∈ st.events → ∀ x ∈ st.frontier, d ≤ x.2
  minEnq : ∀ c d, Event.recorded c d ∈ st.events →
    ∀ k, Event.enqueued c k ∈ st.events → d ≤ k
  recHasEnq : ∀ c d, Event.recorded c d ∈ st.events → Event.enqueued c d ∈ st.events
  frontierEnq : ∀ x ∈ st.frontier, Event.enqueued x.1 x.2 ∈ st.events
  deqChain : List.Chain' (· ≤ ·) (deqDepths st.events)
  deqLast : ∀ d₀, (deqDepths st.events).getLast? = some d₀ → ∀ x ∈ st.frontier, d₀ ≤ x.2
  recElig : ∀ c ∈ st.scanned_companies, eligible f cfg c = true
  enqFrom : ∀ c k, Event.enqueued c k ∈ st.events →
    (k = 0 ∧ c ∈ seeds) ∨ (1 ≤ k ∧ ∃ x, Event.dequeued x (k - 1) ∈ st.events)

/-- How the officer-processing phase of one expansion of company `c` at depth
`depth` may change the state: it appends frontier items at depth `depth + 1`
for companies outside the visited set (with matching ghost enqueue events, in
lockstep), appends connections for `c` at depth `depth`, and leaves the
companies map and the visited-company set untouched. -/
def FanExtends (c : String) (depth : ℕ) (st st' : ScanState) : Prop :=
  ∃ Δf Δc,
    st'.frontier = st.frontier ++ Δf ∧
    st'.events = st.events ++ Δf.map (fun x => Event.enqueued x.1 x.2) ∧
    st'.companies = st.companies ∧
    st'.scanned_companies = st.scanned_companies ∧
    st'.connections = st.connections ++ Δc ∧
    (∀ x ∈ Δf, x.2 = depth + 1 ∧ x.1 ∉ st.scanned_companies) ∧
    (∀ conn ∈ Δc, conn.company_number = c ∧ conn.depth = depth)

/-- Does the officer fan-out body mark the officer as visited?  `false` exactly
on the two paths where the exception escapes to the officer-level handler before
line 208: a raising `search_officers` call, and the `IndexError` from
`match_id.split('/')[-2]` on a short link. -/
def searchMarks (f : Facade) (name : String) : Bool :=
  if isCorporateName name then true
  else
    match f.search_officers name with
    | .error _ => false
    | .ok results =>
      if results.isEmpty then true
      else
        match selectBestMatch name results with
        | none => true
        | some r =>
          let match_id := r.links_self.getD ""
          if match_id = "" then true
          else if (splitSlash match_id).length < 2 then false
          else true

/-! ## Concrete fixtures used by counterexamples and witnesses -/

/-- An active company profile named after the company number. -/
def exProfile (nm : String) : Except String Profile :=
  .ok ⟨some nm, some "active", some "ltd", some "2020-01-01"⟩

/-- A facade exhibiting an officer-identity-key collision: company `A`'s officer
`X_1` appointed on `2` and company `B`'s officer `X` appointed on `1_2` both get
the identity key `"X_1_2"`, so `B`'s officer is never searched and company `C`
(two officer hops from the seed via `B`) is only discovered through the longer
path `A → D → E → C`. -/
def collisionFacade : Facade where
  get_company_profile := fun c =>
    if c ∈ (["A", "B", "C", "D", "E"] : List String) then exProfile c else .error "404"
  get_officers := fun c =>
    if c = "A" then .ok [⟨some "X_1", some "director", some "2", none, none⟩,
                         ⟨some "Y", some "director", none, none, none⟩]
    else if c = "B" then .ok [⟨some "X", some "director", some "1_2", none, none⟩]
    else if c = "C" then .ok []
    else if c = "D" then .ok [⟨some "Z", some "director", some "9", none, none⟩]
    else if c = "E" then .ok [⟨some "W", some "director", some "9", none, none⟩]
    else .error "404"
  search_officers := fun n =>
    if n = "X_1" then .ok [⟨some "X_1", some "/officers/OX1/appointments"⟩]
    else if n = "Y" then .ok [⟨some "Y", some "/officers/OY/appointments"⟩]
    else if n = "X" then .ok [⟨some "X", some "/officers/OX/appointments"⟩]
    else if n = "Z" then .ok [⟨some "Z", some "/officers/OZ/appointments"⟩]
    else if n = "W" then .ok [⟨some "W", some "/officers/OW/appointments"⟩]
    else .error "404"
  get_officer_appointments := fun i =>
    if i = "OX1" then .ok [⟨some "B", none, some "active"⟩]
    else if i = "OY" then .ok [⟨some "D", none, some "active"⟩]
    else if i = "OX" then .ok [⟨some "C", none, some "active"⟩]
    else if i = "OZ" then .ok [⟨some "E", none, some "active"⟩]
    else if i = "OW" then .ok [⟨some "C", none, some "active"⟩]
    else .error "404"

/-- `max_depth = 3`, `max_companies = 100`, `active_only = False`. -/
def cfgC1 : Config := ⟨3, 100, false⟩

/-- Two eligible active companies with no officers. -/
def twoSeedFacade : Facade where
  get_company_profile := fun c =>
    if c = "S1" ∨ c = "S2" then exProfile c else .error "404"
  get_officers := fun c => if c = "S1" ∨ c = "S2" then .ok [] else .error "404"
  search_officers := fun _ => .error "404"
  get_officer_appointments := fun _ => .error "404"

/-- `max_companies = 1` for the C4 scenario. -/
def cfgC4 : Config := ⟨2, 1, true⟩

/-- A facade whose officer search always raises: the officer-level handler
catches the exception before the visited-set insertion at line 208. -/
def searchFailFacade : Facade where
  get_company_profile := fun c => if c = "S" then exProfile c else .error "404"
  get_officers := fun c =>
    if c = "S" then .ok [⟨some "JOHN DOE", some "director", some "2021", none, none⟩]
    else .error "404"
  search_officers := fun _ => .error "500 server error"
  get_officer_appointments := fun _ => .error "404"

/-- `max_depth = 2`, so the seed's officer is eligible for fan-out. -/
def cfgC7 : Config := ⟨2, 100, true⟩

/-- Six search results of which only the sixth has the searched name as title:
the code inspects only the first five, so it falls back to the first result. -/
def sixResults : List SearchResult :=
  [⟨some "Alice One", some "/officers/A1/appointments"⟩,
   ⟨some "Alice Two", some "/officers/A2/appointments"⟩,
   ⟨some "Alice Three", some "/officers/A3/appointments"⟩,
   ⟨some "Alice Four", some "/officers/A4/appointments"⟩,
   ⟨some "Alice Five", some "/officers/A5/appointments"⟩,
   ⟨some "John Smith", some "/officers/GOOD/appointments"⟩]

/-- A two-company snapshot whose companies share the director identity `D1`. -/
def netC8 : Network :=
  { seed_companies := ["A"],
    max_depth := 1,
    companies := [("A", ⟨"A", none, none, none, none, 0, 1⟩),
                  ("B", ⟨"B", none, none, none, none, 1, 1⟩)],
    directors := [],
    connections := [⟨"A", none, "D1", "d", "director", 0⟩,
                    ⟨"B", none, "D1", "d", "director", 1⟩],
    statistics := ⟨2, 1, 2, 1⟩ }

/-! ## Theorems

### Rate limiter lemmas (claim C2) -/

theorem dropWhile_eq_drop {β : Type} (p : β → Bool) (l : List β) :
    l.dropWhile p = l.drop (l.takeWhile p).length := by
  calc l.dropWhile p
      = (l.takeWhile p ++ l.dropWhile p).drop (l.takeWhile p).length :=
        (List.drop_left _ _).symm
    _ = l.drop (l.takeWhile p).length := by
        rw [List.takeWhile_append_dropWhile]

theorem take_prefix_of_length {β : Type} (p : β → Bool) (l : List β) :
    l.take (l.takeWhile p).length = l.takeWhile p := by
  calc l.take (l.takeWhile p).length
      = (l.takeWhile p ++ l.dropWhile p).take (l.takeWhile p).length := by
        rw [List.takeWhile_append_dropWhile]
    _ = l.takeWhile p := List.take_left _ _

theorem sorted_dropWhile_ge {l : List α} (hs : l.Pairwise (· ≤ ·)) (c : α) :
    ∀ x ∈ l.dropWhile (fun t => decide (t < c)), c ≤ x := by
  induction l with
  | nil => intro x hx; simp [List.dropWhile] at hx
  | cons h tl ih =>
    intro x hx
    rw [List.dropWhile_cons] at hx
    by_cases hh : h < c
    · rw [if_pos (by simpa using hh)] at hx
      exact ih hs.of_cons x hx
    · rw [if_neg (by simpa using hh)] at hx
      rcases List.mem_cons.mp hx with rfl | hmem
      · exact le_of_not_lt hh
      · exact le_trans (le_of_not_lt hh) (List.rel_of_pairwise_cons hs hmem)

/-- Pruning a suffix `gs.drop m` of the grant history yields a further suffix
`gs.drop M`, and every grant pruned in the process is stale. -/
theorem prune_structure {period : α} {gs : List α} {m : ℕ} (hm : m ≤ gs.length)
    (t : α) :
    ∃ M, m ≤ M ∧ M ≤ gs.length ∧
      pruneReqs period t (gs.drop m) = gs.drop M ∧
      ∀ g ∈ (gs.take M).drop m, g < t - period := by
  classical
  set p : α → Bool := fun x => decide (x < t - period) with hp
  set k := ((gs.drop m).takeWhile p).length with hk
  have hklen : k ≤ gs.length - m := by
    have := (List.takeWhile_sublist (l := gs.drop m) p).length_le
    simpa [hk] using this
  refine ⟨m + k, Nat.le_add_right _ _, by omega, ?_, ?_⟩
  · rw [pruneReqs, dropWhile_eq_drop, List.drop_drop]
  · intro g hg
    have hseg : (gs.take (m + k)).drop m = (gs.drop m).take k := by
      rw [List.drop_take]
      congr 1
      omega
    rw [hseg, hk, take_prefix_of_length] at hg
    have := List.mem_takeWhile_imp hg
    simpa [hp] using this

/-- A strictly monotone `Fin` embedding moves indices apart at least as fast as
the identity. -/
theorem orderEmbedding_gap {n k : ℕ} (f : Fin n ↪o Fin k) :
    ∀ (d : ℕ) (i j : Fin n), j.val = i.val + d → (f i).val + d ≤ (f j).val := by
  intro d
  induction d with
  | zero =>
    intro i j hj
    have hij : i = j := Fin.ext (by omega)
    subst hij
    simp
  | succ d ih =>
    intro i j hj
    have hlt : i.val + d < n := by omega
    have hstep : (f ⟨i.val + d, hlt⟩).val < (f j).val := by
      have hv : i.val + d < j.val := by omega
      have hfl : (⟨i.val + d, hlt⟩ : Fin n) < j := by
        simpa [Fin.lt_def] using hv
      exact f.strictMono hfl
    have := ih i ⟨i.val + d, hlt⟩ rfl
    omega

/-- A sorted grant history whose `maxR`-apart entries are `period` apart admits
at most `maxR` grants in any half-open window of length `period`. -/
theorem sorted_spaced_window_bound {maxR : ℕ} {period : α} {gs : List α}
    (hsort : gs.Pairwise (· ≤ ·))
    (hsp : ∀ (i j : ℕ) (hi : i < gs.length) (hj : j < gs.length),
      i + maxR ≤ j → gs.get ⟨i, hi⟩ + period ≤ gs.get ⟨j, hj⟩) :
    ∀ a : α, grantsInWindow period gs a ≤ maxR := by
  intro a
  by_contra hgt
  push_neg at hgt
  set s := gs.filter (fun g => decide (a ≤ g ∧ g < a + period)) with hs
  have hslen : maxR + 1 ≤ s.length := by
    have hlen : grantsInWindow period gs a = s.length := rfl
    omega
  have hsub : List.Sublist s gs := List.filter_sublist gs
  obtain ⟨f, hf⟩ := List.sublist_iff_exists_fin_orderEmbedding_get_eq.mp hsub
  have h0 : (0 : ℕ) < s.length := by omega
  have hM : maxR < s.length := by omega
  have hws : ∀ x ∈ s, a ≤ x ∧ x < a + period := by
    intro x hx
    have hx2 : x ∈ gs.filter (fun g => decide (a ≤ g ∧ g < a + period)) := hs ▸ hx
    exact of_decide_eq_true (List.mem_filter.mp hx2).2
  have hwin0 : a ≤ s.get ⟨0, h0⟩ ∧ s.get ⟨0, h0⟩ < a + period :=
    hws _ (List.get_mem s 0 h0)
  have hwinM : a ≤ s.get ⟨maxR, hM⟩ ∧ s.get ⟨maxR, hM⟩ < a + period :=
    hws _ (List.get_mem s maxR hM)
  have hgap := orderEmbedding_gap f maxR ⟨0, h0⟩ ⟨maxR, hM⟩ (by simp)
  have hsp' := hsp (f ⟨0, h0⟩).val (f ⟨maxR, hM⟩).val (f ⟨0, h0⟩).isLt
    (f ⟨maxR, hM⟩).isLt (by omega)
  simp only [Fin.eta] at hsp'
  rw [← hf ⟨0, h0⟩, ← hf ⟨maxR, hM⟩] at hsp'
  have h1 : s.get ⟨maxR, hM⟩ < a + period := hwinM.2
  have h2 : a + period ≤ s.get ⟨maxR, hM⟩ :=
    le_trans (add_le_add_right hwin0.1 period) hsp'
  exact absurd h1 (not_lt.mpr h2)

theorem mem_of_drop {β : Type} {x : β} {l : List β} {m : ℕ} (h : x ∈ l.drop m) :
    x ∈ l :=
  (List.drop_sublist m l).subset h

theorem drop_append_left {β : Type} (l₁ l₂ : List β) {n : ℕ} (h : n ≤ l₁.length) :
    (l₁ ++ l₂).drop n = l₁.drop n ++ l₂ := by
  rw [List.drop_append_eq_append_drop]
  have h0 : n - l₁.length = 0 := by omega
  rw [h0, List.drop_zero]

theorem take_append_left {β : Type} (l₁ l₂ : List β) {n : ℕ} (h : n ≤ l₁.length) :
    (l₁ ++ l₂).take n = l₁.take n := by
  rw [List.take_append_eq_append_take]
  have h0 : n - l₁.length = 0 := by omega
  rw [h0, List.take_zero, List.append_nil]

theorem get_le_get_of_pairwise {l : List α} (hs : l.Pairwise (· ≤ ·)) {i j : ℕ}
    (hi : i < l.length) (hj : j < l.length) (hij : i ≤ j) :
    l.get ⟨i, hi⟩ ≤ l.get ⟨j, hj⟩ := by
  rcases Nat.lt_or_ge i j with h | h
  · exact List.pairwise_iff_get.mp hs ⟨i, hi⟩ ⟨j, hj⟩ (by simpa [Fin.lt_def] using h)
  · have hij' : i = j := by omega
    subst hij'
    rfl

/-- Every grant strictly before position `M` of the history is stale at an
arrival `t` bounding all grants. -/
theorem stale_take {period t : α} {gs : List α} {m M : ℕ} (hmM : m ≤ M)
    (hstale : ∀ g ∈ gs.take m, ∃ G ∈ gs, g < G - period)
    (hMstale : ∀ g ∈ (gs.take M).drop m, g < t - period)
    (hle : ∀ g ∈ gs, g ≤ t) :
    ∀ x ∈ gs.take M, x < t - period := by
  intro x hx
  rw [← List.take_append_drop m (gs.take M)] at hx
  rcases List.mem_append.mp hx with h | h
  · rw [List.take_take, min_eq_left hmM] at h
    obtain ⟨G, hG, hlt⟩ := hstale x h
    exact lt_of_lt_of_le hlt (sub_le_sub_right (hle G hG) period)
  · exact hMstale x h

/-- Rebuild the rate-limiter invariant after appending a fresh grant `g`, given
the branch-specific facts about the new deque `gs.drop M ++ [g]`. -/
theorem RLInv_extend {maxR : ℕ} {period t g : α} {gs : List α} {M : ℕ}
    {rl' : RateLimiter α}
    (hmaxpos : 1 ≤ maxR)
    (hmax : rl'.max_requests = maxR) (hper : rl'.period = period)
    (hreq : rl'.requests = gs.drop M ++ [g])
    (hsorted : gs.Pairwise (· ≤ ·))
    (hspaced : ∀ (i j : ℕ) (hi : i < gs.length) (hj : j < gs.length),
      i + maxR ≤ j → gs.get ⟨i, hi⟩ + period ≤ gs.get ⟨j, hj⟩)
    (hMlen : M ≤ gs.length)
    (hstaleM : ∀ x ∈ gs.take M, x < t - period)
    (hle : ∀ x ∈ gs, x ≤ t)
    (htg : t ≤ g)
    (hbound : ∀ u : α, g ≤ u →
      (gs.drop M ++ [g]).countP (fun x => decide (u - period < x)) ≤ maxR)
    (hspacedNew : ∀ (i : ℕ) (hi : i < gs.length), i + maxR ≤ gs.length →
      gs.get ⟨i, hi⟩ + period ≤ g) :
    RLInv maxR period (gs ++ [g]) rl' := by
  constructor
  · exact hmax
  · exact hper
  · rw [List.pairwise_append]
    refine ⟨hsorted, List.pairwise_singleton _ _, ?_⟩
    intro x hx y hy
    rw [List.mem_singleton] at hy
    subst hy
    exact le_trans (hle x hx) htg
  · refine ⟨M, ?_, ?_, ?_⟩
    · rw [List.length_append]
      omega
    · rw [hreq, drop_append_left _ _ hMlen]
    · intro x hx
      rw [take_append_left _ _ hMlen] at hx
      exact ⟨g, List.mem_append_right _ (List.mem_singleton_self g),
        lt_of_lt_of_le (hstaleM x hx) (sub_le_sub_right htg period)⟩
  · intro u hu
    rw [hreq]
    exact hbound u (hu g (List.mem_append_right _ (List.mem_singleton_self g)))
  · intro i j hi hj hij
    have hlen : (gs ++ [g]).length = gs.length + 1 := by simp
    by_cases hjn : j < gs.length
    · have hin : i < gs.length := by omega
      have egi : (gs ++ [g]).get ⟨i, hi⟩ = gs.get ⟨i, hin⟩ := List.get_append i hin
      have egj : (gs ++ [g]).get ⟨j, hj⟩ = gs.get ⟨j, hjn⟩ := List.get_append j hjn
      rw [egi, egj]
      exact hspaced i j hin hjn hij
    · have hjn' : j = gs.length := by omega
      have hin : i < gs.length := by omega
      have egi : (gs ++ [g]).get ⟨i, hi⟩ = gs.get ⟨i, hin⟩ := List.get_append i hin
      have egj : (gs ++ [g]).get ⟨j, hj⟩ = g := by
        rw [List.get_eq_getElem]
        exact List.getElem_concat_length _ _ _ hjn' _
      rw [egi, egj]
      exact hspacedNew i hin (by omega)

/-- One successful `acquire()` preserves the invariant: the grant is no earlier
than the observed arrival, and the extended grant history satisfies `RLInv`.
Hypotheses: every earlier grant is at most `t` (the lock serialises calls and
the clock is monotone), and `t` is not exactly at the expiry boundary of any
earlier grant. -/
theorem rlAcquire_some_inv {maxR : ℕ} {period : α} {gs : List α}
    {rl : RateLimiter α} (inv : RLInv maxR period gs rl) {t : α}
    (hle : ∀ g ∈ gs, g ≤ t) (hne : ∀ g ∈ gs, t ≠ g + period)
    {rl' : RateLimiter α} {g : α} (hacq : rlAcquire rl t = some (rl', g)) :
    t ≤ g ∧ RLInv maxR period (gs ++ [g]) rl' := by
  obtain ⟨m, hm, hreq, hstale⟩ := inv.isDrop
  obtain ⟨M, hmM, hMlen, hMprune, hMstale⟩ :=
    @prune_structure α _ period gs m hm t
  have hprune : pruneReqs period t rl.requests = gs.drop M := by
    rw [hreq, hMprune]
  have hstaleT : ∀ x ∈ gs.take M, x < t - period :=
    stale_take hmM hstale hMstale hle
  have hmemB : ∀ x ∈ gs.drop M, t - period < x := by
    intro x hx
    have hxgs : x ∈ gs := mem_of_drop hx
    have hx' : x ∈ (gs.drop m).dropWhile (fun y => decide (y < t - period)) := by
      have he : (gs.drop m).dropWhile (fun y => decide (y < t - period)) = gs.drop M := by
        rw [← hMprune, pruneReqs]
      rw [he]
      exact hx
    have hge : t - period ≤ x :=
      sorted_dropWhile_ge (inv.sorted.sublist (List.drop_sublist _ _)) _ x hx'
    rcases lt_or_eq_of_le hge with h | h
    · exact h
    · exact absurd (sub_eq_iff_eq_add.mp h) (hne x hxgs)
  have hcnt : (gs.drop M).length ≤ maxR := by
    have h1 : (gs.drop M).countP (fun x => decide (t - period < x)) =
        (gs.drop M).length :=
      List.countP_eq_length.mpr (fun x hx => decide_eq_true (hmemB x hx))
    have hsubl : List.Sublist (gs.drop M) rl.requests := by
      rw [hreq, ← hMprune, pruneReqs]
      exact List.dropWhile_sublist _
    have h2 := hsubl.countP_le (p := fun x => decide (t - period < x))
    have h3 := inv.boundCnt t hle
    omega
  rw [rlAcquire] at hacq
  simp only [inv.maxEq, inv.perEq, hprune] at hacq
  by_cases hfull : maxR ≤ (gs.drop M).length
  · rw [if_pos hfull] at hacq
    split at hacq
    · simp at hacq
    · next h tail hdM =>
      have hhd : t - period < h := hmemB h (by rw [hdM]; exact List.mem_cons_self h tail)
      have htlt : t < h + period := sub_lt_iff_lt_add.mp hhd
      have hpos : 0 < h + period - t := sub_pos.mpr htlt
      rw [if_pos hpos] at hacq
      rw [hdM] at hacq
      have hrep : pruneReqs period (h + period) (h :: tail) = h :: tail := by
        rw [pruneReqs, List.dropWhile_cons, if_neg]
        simp
      rw [hrep] at hacq
      rw [Option.some.injEq, Prod.mk.injEq] at hacq
      obtain ⟨hrl', hg⟩ := hacq
      subst hg
      have hlenM : (gs.drop M).length = gs.length - M := List.length_drop _ _
      rw [hdM] at hlenM
      simp only [List.length_cons] at hlenM
      have hMn : M < gs.length := by omega
      have hmaxeq : gs.length - M = maxR := by
        rw [hdM] at hcnt
        rw [hdM] at hfull
        simp only [List.length_cons] at hcnt hfull
        omega
      have hhead : gs.get ⟨M, hMn⟩ = h := by
        have hd := List.drop_eq_getElem_cons (n := M) (l := gs) hMn
        rw [hdM] at hd
        injection hd with h1 h2
        rw [List.get_eq_getElem]
        exact h1.symm
      have htg : t ≤ h + period := le_of_lt htlt
      refine ⟨htg, ?_⟩
      refine RLInv_extend (t := t) (by omega) ?_ ?_ ?_ inv.sorted inv.spaced hMlen
        hstaleT hle htg ?_ ?_
      · rw [← hrl']
      · rw [← hrl']
      · rw [← hrl', hdM]
      · intro u hu
        rw [hdM]
        have hcu : (decide (u - period < h)) = false := by
          simp only [decide_eq_false_iff_not, not_lt]
          exact le_sub_iff_add_le.mpr hu
        have he : ((h :: tail) ++ [h + period] : List α) =
            h :: (tail ++ [h + period]) := rfl
        rw [he, List.countP_cons]
        have hlt : (tail ++ [h + period]).length = maxR := by
          simp only [List.length_append, List.length_cons, List.length_nil]
          omega
        have hcl : (tail ++ [h + period]).countP
              (fun x => decide (u - period < x)) ≤ (tail ++ [h + period]).length :=
          List.countP_le_length _
        simp only [hcu, Bool.false_eq_true, if_false]
        omega
      · intro i hi hin
        have hiM : i ≤ M := by omega
        have hgle : gs.get ⟨i, hi⟩ ≤ gs.get ⟨M, hMn⟩ :=
          get_le_get_of_pairwise inv.sorted hi hMn hiM
        rw [hhead] at hgle
        exact add_le_add_right hgle period
  · rw [if_neg hfull] at hacq
    rw [Option.some.injEq, Prod.mk.injEq] at hacq
    obtain ⟨hrl', hg⟩ := hacq
    subst hg
    push_neg at hfull
    have hlenM : (gs.drop M).length = gs.length - M := List.length_drop _ _
    refine ⟨le_refl t, ?_⟩
    refine RLInv_extend (t := t) (by omega) ?_ ?_ ?_ inv.sorted inv.spaced hMlen
      hstaleT hle (le_refl t) ?_ ?_
    · rw [← hrl']
    · rw [← hrl']
    · rw [← hrl']
    · intro u hu
      rw [List.countP_append]
      have h1 : (gs.drop M).countP (fun x => decide (u - period < x)) ≤
          (gs.drop M).length := List.countP_le_length _
      have h2 : ([t].countP (fun x => decide (u - period < x))) ≤ 1 := by
        have hcl : ([t] : List α).countP (fun x => decide (u - period < x)) ≤
            ([t] : List α).length := List.countP_le_length _
        simpa using hcl
      omega
    · intro i hi hin
      have hiM : i < M := by omega
      have hmem : gs.get ⟨i, hi⟩ ∈ gs.take M := by
        have hlt : i < (gs.take M).length := by
          rw [List.length_take]
          omega
        have e : (gs.take M).get ⟨i, hlt⟩ = gs.get ⟨i, hi⟩ := by
          rw [List.get_eq_getElem, List.get_eq_getElem]
          exact List.getElem_take _
        rw [← e]
        exact List.get_mem _ _ _
      exact le_of_lt (lt_sub_iff_add_lt.mp (hstaleT _ hmem))

/-- Running every call of an `arrOK` arrival sequence succeeds and preserves the
invariant over the accumulated grant history. -/
theorem rlRun_inv {maxR : ℕ} {period : α} (ts : List α) :
    ∀ (gs : List α) (rl : RateLimiter α),
      RLInv maxR period gs rl → arrOK rl gs ts = true →
      ∃ rl' gsN, rlRun rl ts = some (rl', gsN) ∧
        RLInv maxR period (gs ++ gsN) rl' := by
  induction ts with
  | nil =>
    intro gs rl inv _
    exact ⟨rl, [], rfl, by simpa using inv⟩
  | cons t ts ih =>
    intro gs rl inv hok
    rw [arrOK, Bool.and_eq_true] at hok
    obtain ⟨hall, hrest⟩ := hok
    have hle : ∀ g ∈ gs, g ≤ t := by
      intro g hg
      have hb := List.all_eq_true.mp hall g hg
      rw [Bool.and_eq_true] at hb
      exact of_decide_eq_true hb.1
    have hne : ∀ g ∈ gs, t ≠ g + period := by
      intro g hg
      have hb := List.all_eq_true.mp hall g hg
      rw [Bool.and_eq_true] at hb
      have h2 := of_decide_eq_true hb.2
      rwa [inv.perEq] at h2
    cases hacq : rlAcquire rl t with
    | none =>
      rw [hacq] at hrest
      have hfalse : (false : Bool) = true := hrest
      cases hfalse
    | some pr =>
      obtain ⟨rl1, g⟩ := pr
      rw [hacq] at hrest
      obtain ⟨htg, inv1⟩ := rlAcquire_some_inv inv hle hne hacq
      obtain ⟨rl2, gsN, hrun, inv2⟩ := ih (gs ++ [g]) rl1 inv1 hrest
      refine ⟨rl2, g :: gsN, ?_, ?_⟩
      · simp only [rlRun, hacq, hrun]
      · simpa [List.append_assoc] using inv2

/-- Claim C2, amended: under the timing hypotheses `arrOK` (serialised calls
with a monotone clock that never lands exactly on the expiry boundary of a
recorded grant), every half-open sliding window of length `period` contains at
most `max_requests` granted acquisitions. -/
theorem rateLimiter_sliding_window (maxR : ℕ) (period : α) (ts : List α)
    (hok : arrOK (⟨maxR, period, []⟩ : RateLimiter α) [] ts = true) :
    ∃ rl' gs, rlRun (⟨maxR, period, []⟩ : RateLimiter α) ts = some (rl', gs) ∧
      ∀ a : α, grantsInWindow period gs a ≤ maxR := by
  have inv0 : RLInv maxR period [] (⟨maxR, period, []⟩ : RateLimiter α) := by
    constructor
    · rfl
    · rfl
    · exact List.Pairwise.nil
    · exact ⟨0, by simp, rfl, by simp⟩
    · intro u _
      simp
    · intro i j hi hj hij
      simp at hj
  obtain ⟨rl', gsN, hrun, inv'⟩ := rlRun_inv ts [] _ inv0 hok
  refine ⟨rl', gsN, hrun, ?_⟩
  have hs := inv'.sorted
  have hsp := inv'.spaced
  simp only [List.nil_append] at hs hsp
  exact sorted_spaced_window_bound hs hsp

/-- Claim C2, counterexample to the claim as stated: with `max_requests = 1`
and `period = 10`, acquire calls observed at times `0, 10, 10` are all granted
immediately — the strict `<` prune keeps the timestamp that is exactly `period`
old and the `sleep_time <= 0` path records without waiting — so the window
`[10, 20)` (indeed the single instant `10`) contains two grants. -/
theorem rateLimiter_window_claim_false :
    (rlRun (⟨1, 10, []⟩ : RateLimiter ℤ) [0, 10, 10]).map Prod.snd =
        some [0, 10, 10] ∧
    grantsInWindow (10 : ℤ) [0, 10, 10] 10 = 2 ∧ 1 < 2 := by
  refine ⟨by decide, by decide, by decide⟩

/-- Witness for the amended claim C2 at a concrete arrival sequence. -/
theorem rateLimiter_sliding_window_witness :
    arrOK (⟨2, 10, []⟩ : RateLimiter ℤ) [] [0, 0, 1, 21] = true ∧
    (∃ rl' gs, rlRun (⟨2, 10, []⟩ : RateLimiter ℤ) [0, 0, 1, 21] = some (rl', gs) ∧
      ∀ a : ℤ, grantsInWindow (10 : ℤ) gs a ≤ 2) :=
  ⟨by decide, rateLimiter_sliding_window 2 10 [0, 0, 1, 21] (by decide)⟩

/-! ### Association-list and visited-set lemmas -/

theorem getKey?_mem_keys {β : Type} {m : List (String × β)} {c : String} {v : β}
    (h : getKey? m c = some v) : c ∈ m.map Prod.fst := by
  induction m with
  | nil => simp [getKey?] at h
  | cons kv rest ih =>
    obtain ⟨k', v'⟩ := kv
    rw [getKey?] at h
    by_cases hk : k' = c
    · subst hk
      simp
    · rw [if_neg hk] at h
      simp only [List.map_cons, List.mem_cons]
      exact Or.inr (ih h)

theorem getKey?_eq_none_of_not_mem {β : Type} {m : List (String × β)} {c : String}
    (h : c ∉ m.map Prod.fst) : getKey? m c = none := by
  cases hk : getKey? m c with
  | none => rfl
  | some v => exact absurd (getKey?_mem_keys hk) h

theorem getKey?_isSome_of_mem {β : Type} {m : List (String × β)} {c : String}
    (h : c ∈ m.map Prod.fst) : (getKey? m c).isSome := by
  induction m with
  | nil => simp at h
  | cons kv rest ih =>
    obtain ⟨k', v'⟩ := kv
    rw [getKey?]
    by_cases hk : k' = c
    · rw [if_pos hk]
      rfl
    · rw [if_neg hk]
      simp only [List.map_cons, List.mem_cons] at h
      rcases h with h | h

      · exact absurd h.symm hk
      · exact ih h

theorem setKey_fresh {β : Type} {m : List (String × β)} {c : String}
    (h : c ∉ m.map Prod.fst) (v : β) : setKey m c v = m ++ [(c, v)] := by
  induction m with
  | nil => rfl
  | cons kv rest ih =>
    obtain ⟨k', v'⟩ := kv
    simp only [List.map_cons, List.mem_cons, not_or] at h
    rw [setKey, if_neg (fun he => h.1 he.symm)]
    rw [List.cons_append]
    congr 1
    exact ih h.2

theorem getKey?_append_left {β : Type} {m : List (String × β)} {c : String} {v : β}
    (h : getKey? m c = some v) (l₂ : List (String × β)) :
    getKey? (m ++ l₂) c = some v := by
  induction m with
  | nil => simp [getKey?] at h
  | cons kv rest ih =>
    obtain ⟨k', v'⟩ := kv
    rw [getKey?] at h
    rw [List.cons_append, getKey?]
    by_cases hk : k' = c
    · rwa [if_pos hk] at h ⊢
    · rw [if_neg hk] at h ⊢
      exact ih h

theorem getKey?_snoc_self {β : Type} {m : List (String × β)} {c : String}
    (h : c ∉ m.map Prod.fst) (v : β) : getKey? (m ++ [(c, v)]) c = some v := by
  induction m with
  | nil => simp [getKey?]
  | cons kv rest ih =>
    obtain ⟨k', v'⟩ := kv
    simp only [List.map_cons, List.mem_cons, not_or] at h
    rw [List.cons_append, getKey?, if_neg (fun he => h.1 he.symm)]
    exact ih h.2

theorem getKey?_snoc_other {β : Type} {m : List (String × β)} {c c' : String}
    (hne : c' ≠ c) (v : β) : getKey? (m ++ [(c, v)]) c' = getKey? m c' := by
  induction m with
  | nil =>
    rw [List.nil_append, getKey?, getKey?, if_neg (fun he => hne he.symm)]
    rw [getKey?]
  | cons kv rest ih =>
    obtain ⟨k', v'⟩ := kv
    rw [List.cons_append, getKey?, getKey?]
    by_cases hk : k' = c'
    · rw [if_pos hk, if_pos hk]
    · rw [if_neg hk, if_neg hk]
      exact ih

theorem addSet_of_not_mem {s : List String} {x : String} (h : x ∉ s) :
    addSet s x = s ++ [x] := by
  rw [addSet, if_neg h]

theorem addSet_of_mem {s : List String} {x : String} (h : x ∈ s) :
    addSet s x = s := by
  rw [addSet, if_pos h]

theorem mem_addSet_self (s : List String) (x : String) : x ∈ addSet s x := by
  rw [addSet]
  split
  · assumption
  · simp

theorem mem_addSet_of_mem {s : List String} {y : String} (x : String) (h : y ∈ s) :
    y ∈ addSet s x := by
  rw [addSet]
  split
  · exact h
  · simp [h]

/-! ### Characterising the officer fan-out (shared by several claims) -/

theorem fanExtends_refl (c : String) (depth : ℕ) (st : ScanState) :
    FanExtends c depth st st :=
  ⟨[], [], by simp, by simp, rfl, rfl, by simp, by simp, by simp⟩

theorem fanExtends_trans {c : String} {depth : ℕ} {st st' st'' : ScanState}
    (h1 : FanExtends c depth st st') (h2 : FanExtends c depth st' st'') :
    FanExtends c depth st st'' := by
  obtain ⟨f1, c1, hf1, he1, hc1, hs1, hn1, hp1, hq1⟩ := h1
  obtain ⟨f2, c2, hf2, he2, hc2, hs2, hn2, hp2, hq2⟩ := h2
  refine ⟨f1 ++ f2, c1 ++ c2, ?_, ?_, ?_, ?_, ?_, ?_, ?_⟩
  · rw [hf2, hf1, List.append_assoc]
  · rw [he2, he1, List.map_append, List.append_assoc]
  · rw [hc2, hc1]
  · rw [hs2, hs1]
  · rw [hn2, hn1, List.append_assoc]
  · intro x hx
    rcases List.mem_append.mp hx with h | h
    · exact hp1 x h
    · have := hp2 x h
      rwa [hs1] at this
  · intro x hx
    rcases List.mem_append.mp hx with h | h
    · exact hq1 x h
    · exact hq2 x h

theorem foldl_fanExtends {γ : Type} {c : String} {depth : ℕ}
    (g : ScanState → γ → ScanState)
    (hg : ∀ st x, FanExtends c depth st (g st x)) :
    ∀ (l : List γ) (st : ScanState), FanExtends c depth st (l.foldl g st) := by
  intro l
  induction l with
  | nil => intro st; exact fanExtends_refl c depth st
  | cons a rest ih =>
    intro st
    rw [List.foldl_cons]
    exact fanExtends_trans (hg st a) (ih (g st a))

theorem apptStep_fanExtends (cfg : Config) (c : String) (depth : ℕ)
    (st : ScanState) (a : ApptRec) :
    FanExtends c depth st (apptStep cfg (depth + 1) st a) := by
  rw [apptStep]
  by_cases h1 : (a.appointed_to_company_number.getD "") = "" ∨
      (a.appointed_to_company_number.getD "") ∈ st.scanned_companies
  · rw [if_pos h1]
    exact fanExtends_refl c depth st
  · rw [if_neg h1]
    by_cases h2 : cfg.active_only && truthyOS a.resigned_on
    · rw [if_pos h2]
      exact fanExtends_refl c depth st
    · rw [if_neg h2]
      by_cases h3 : cfg.active_only &&
          !(a.appointed_to_company_status == some "active")
      · rw [if_pos h3]
        exact fanExtends_refl c depth st
      · rw [if_neg h3]
        push_neg at h1
        refine ⟨[(a.appointed_to_company_number.getD "", depth + 1)], [],
          rfl, rfl, rfl, rfl, by simp, ?_, by simp⟩
        intro x hx
        rw [List.mem_singleton] at hx
        subst hx
        exact ⟨rfl, h1.2⟩

theorem markOfficer_fanExtends (c : String) (depth : ℕ) (oid : String)
    (st : ScanState) : FanExtends c depth st (markOfficer oid st) :=
  ⟨[], [], by simp [markOfficer], by simp [markOfficer], rfl, rfl,
    by simp [markOfficer], by simp, by simp⟩

theorem officerSearchPhase_fanExtends (f : Facade) (cfg : Config)
    (oid officer_name : String) (depth : ℕ) (st : ScanState) :
    FanExtends c depth st (officerSearchPhase f cfg oid officer_name depth st) := by
  simp only [officerSearchPhase]
  split
  · exact markOfficer_fanExtends c depth oid st
  · split
    · exact fanExtends_refl c depth st
    · split
      · exact markOfficer_fanExtends c depth oid st
      · split
        · exact markOfficer_fanExtends c depth oid st
        · split
          · exact markOfficer_fanExtends c depth oid st
          · split
            · exact fanExtends_refl c depth st
            · split
              · exact markOfficer_fanExtends c depth oid st
              · exact fanExtends_trans
                  (foldl_fanExtends _ (apptStep_fanExtends cfg c depth) _ st)
                  (markOfficer_fanExtends c depth oid _)

theorem officerRecordPhase_fanExtends (c : String) (pname : Option String)
    (depth : ℕ) (st : ScanState) (o : Officer) :
    FanExtends c depth st (officerRecordPhase c pname depth st o) := by
  refine ⟨[], [⟨c, pname, officerId o, o.name.getD "", o.officer_role.getD "",
    depth⟩], ?_, ?_, ?_, ?_, ?_, by simp, ?_⟩
  · simp [officerRecordPhase]
  · simp [officerRecordPhase]
  · simp [officerRecordPhase]
  · simp [officerRecordPhase]
  · simp [officerRecordPhase]
  · intro x hx
    rw [List.mem_singleton] at hx
    subst hx
    exact ⟨rfl, rfl⟩

theorem processOfficer_fanExtends (f : Facade) (cfg : Config) (c : String)
    (pname : Option String) (depth : ℕ) (st : ScanState) (o : Officer) :
    FanExtends c depth st (processOfficer f cfg c pname depth st o) := by
  simp only [processOfficer]
  split
  · exact fanExtends_trans (officerRecordPhase_fanExtends c pname depth st o)
      (officerSearchPhase_fanExtends f cfg (officerId o) (o.name.getD "") depth _)
  · exact officerRecordPhase_fanExtends c pname depth st o

/-! ### Event-trace helpers -/

theorem getKey?_append_of_none {β : Type} {m : List (String × β)} {c : String}
    (h : getKey? m c = none) (l₂ : List (String × β)) :
    getKey? (m ++ l₂) c = getKey? l₂ c := by
  induction m with
  | nil => rfl
  | cons kv rest ih =>
    obtain ⟨k', v'⟩ := kv
    rw [getKey?] at h
    rw [List.cons_append, getKey?]
    by_cases hk : k' = c
    · rw [if_pos hk] at h
      cases h
    · rw [if_neg hk] at h ⊢
      exact ih h

theorem pairwise_depth_const {l : List (String × ℕ)} {k : ℕ}
    (h : ∀ x ∈ l, x.2 = k) : l.Pairwise (fun x y => x.2 ≤ y.2) := by
  induction l with
  | nil => exact List.Pairwise.nil
  | cons a t ih =>
    rw [List.pairwise_cons]
    refine ⟨fun y hy => ?_, ih (fun x hx => h x (List.mem_cons_of_mem a hx))⟩
    rw [h a (List.mem_cons_self a t), h y (List.mem_cons_of_mem a hy)]

theorem deqDepths_append (l₁ l₂ : List Event) :
    deqDepths (l₁ ++ l₂) = deqDepths l₁ ++ deqDepths l₂ :=
  List.filterMap_append _ _ _

theorem deqDepths_map_enq (Δf : List (String × ℕ)) :
    deqDepths (Δf.map (fun x => Event.enqueued x.1 x.2)) = [] := by
  induction Δf with
  | nil => rfl
  | cons a t ih =>
    rw [List.map_cons]
    simpa [deqDepths, List.filterMap_cons] using ih

theorem deqDepths_dequeued (c : String) (d : ℕ) :
    deqDepths [Event.dequeued c d] = [d] := rfl

theorem deqDepths_recorded (c : String) (d : ℕ) :
    deqDepths [Event.recorded c d] = [] := rfl

theorem count_map_enqueued (Δf : List (String × ℕ)) (c : String) (d : ℕ) :
    (Δf.map (fun x => Event.enqueued x.1 x.2)).count (Event.enqueued c d) =
      Δf.count (c, d) := by
  induction Δf with
  | nil => rfl
  | cons a t ih =>
    obtain ⟨a1, a2⟩ := a
    rw [List.map_cons, List.count_cons, List.count_cons, ih]
    congr 1
    by_cases h1 : a1 = c
    · by_cases h2 : a2 = d
      · simp [h1, h2]
      · simp [h1, h2]
    · simp [h1]

theorem mem_enqueued_of_mem_map {Δf : List (String × ℕ)} {e : Event}
    (h : e ∈ Δf.map (fun x => Event.enqueued x.1 x.2)) :
    ∃ x ∈ Δf, e = Event.enqueued x.1 x.2 := by
  obtain ⟨x, hx, rfl⟩ := List.mem_map.mp h
  exact ⟨x, hx, rfl⟩

/-- A dequeue that does not expand (already visited, beyond `max_depth`, or not
eligible) preserves the crawl invariant. -/
theorem scanInv_dequeue_only {f : Facade} {cfg : Config} {seeds : List String}
    {st : ScanState} (inv : ScanInv f cfg seeds st) {c : String} {depth : ℕ}
    {rest : List (String × ℕ)} (hfr : st.frontier = (c, depth) :: rest)
    (hdrop : c ∈ st.scanned_companies ∨ cfg.max_depth < depth ∨
      eligible f cfg c = false) :
    ScanInv f cfg seeds
      { st with frontier := rest, events := st.events ++ [.dequeued c depth] } := by
  have hpw := inv.frontierSorted
  rw [hfr, List.pairwise_cons] at hpw
  obtain ⟨hheadrel, hsorted'⟩ := hpw
  have hmemrest : ∀ x ∈ rest, x ∈ st.frontier := by
    intro x hx
    rw [hfr]
    exact List.mem_cons_of_mem _ hx
  have hheadmem : ((c, depth) : String × ℕ) ∈ st.frontier := by
    rw [hfr]
    exact List.mem_cons_self _ _
  have hrecmem : ∀ c' d', Event.recorded c' d' ∈
      st.events ++ [Event.dequeued c depth] ↔ Event.recorded c' d' ∈ st.events := by
    intro c' d'
    constructor
    · intro h
      rcases List.mem_append.mp h with h | h
      · exact h
      · simp at h
    · exact fun h => List.mem_append_left _ h
  have henqmem : ∀ c' k, Event.enqueued c' k ∈
      st.events ++ [Event.dequeued c depth] ↔ Event.enqueued c' k ∈ st.events := by
    intro c' k
    constructor
    · intro h
      rcases List.mem_append.mp h with h | h
      · exact h
      · simp at h
    · exact fun h => List.mem_append_left _ h
  constructor
  · exact hsorted'
  · intro x hx y hy
    exact inv.frontierClose x (hmemrest x hx) y (hmemrest y hy)
  · exact inv.keysEq
  · exact inv.cmpBound
  · exact inv.connDepth
  · intro c' d
    rw [hrecmem]
    exact inv.recMap c' d
  · intro c'
    rw [List.countP_append]
    have h0 : List.countP (fun e => isRecordOf c' e) [Event.dequeued c depth] = 0 := by
      simp [isRecordOf]
    have h1 := inv.recOnce c'
    omega
  · intro c' d h
    rcases List.mem_append.mp h with h | h
    · exact inv.deqElig c' d h
    · rw [List.mem_singleton] at h
      injection h with h1 h2
      subst h1
      subst h2
      exact hdrop
  · intro c' d'
    dsimp only
    have hq := inv.queueCount c' d'
    rw [hfr] at hq
    rw [List.count_append, List.count_append]
    have he : List.count (Event.enqueued c' d') [Event.dequeued c depth] = 0 := by
      simp
    have hd : List.count (Event.dequeued c' d') [Event.dequeued c depth] =
        if c = c' ∧ depth = d' then 1 else 0 := by
      by_cases h1 : c = c' <;> by_cases h2 : depth = d' <;>
        simp [List.count_cons, List.count_nil, h1, h2]
    have hc : List.count ((c', d') : String × ℕ) ((c, depth) :: rest) =
        List.count (c', d') rest + (if c = c' ∧ depth = d' then 1 else 0) := by
      rw [List.count_cons]
      congr 1
      by_cases h1 : c = c' <;> by_cases h2 : depth = d' <;>
        simp [List.count_cons, List.count_nil, h1, h2]
    rw [hc] at hq
    rw [he, hd]
    omega
  · intro c' d h x hx
    rw [hrecmem] at h
    exact inv.recFrontier c' d h x (hmemrest x hx)
  · intro c' d h k hk
    rw [hrecmem] at h
    rw [henqmem] at hk
    exact inv.minEnq c' d h k hk
  · intro c' d h
    rw [hrecmem] at h
    exact List.mem_append_left _ (inv.recHasEnq c' d h)
  · intro x hx
    exact List.mem_append_left _ (inv.frontierEnq x (hmemrest x hx))
  · rw [deqDepths_append, deqDepths_dequeued]
    rw [List.chain'_append]
    refine ⟨inv.deqChain, List.chain'_singleton _, ?_⟩
    intro x hx y hy
    simp only [List.head?_cons, Option.mem_def, Option.some.injEq] at hy
    subst hy
    exact inv.deqLast x hx (c, depth) hheadmem
  · intro d₀ hlast x hx
    rw [deqDepths_append, deqDepths_dequeued, List.getLast?_concat] at hlast
    injection hlast with h1
    subst h1
    exact hheadrel x hx
  · exact inv.recElig
  · intro c' k hk
    rw [henqmem] at hk
    rcases inv.enqFrom c' k hk with h | ⟨h1, x, h2⟩
    · exact Or.inl h
    · exact Or.inr ⟨h1, x, List.mem_append_left _ h2⟩

/-- Expanding an eligible, unvisited, in-depth company preserves the crawl
invariant. -/
theorem scanInv_expand {f : Facade} {cfg : Config} {seeds : List String}
    {st : ScanState} (inv : ScanInv f cfg seeds st) {c : String} {depth : ℕ}
    {rest : List (String × ℕ)} (hfr : st.frontier = (c, depth) :: rest)
    (hnotsc : c ∉ st.scanned_companies) (hdep : depth ≤ cfg.max_depth)
    (hcap : st.scanned_companies.length < cfg.max_companies)
    (helig : eligible f cfg c = true)
    (pname : Option String) (officers : List Officer) {node : CompanyNode}
    (hnode : node.depth = depth) :
    ScanInv f cfg seeds
      (officers.foldl (processOfficer f cfg c pname depth)
        { st with
          frontier := rest,
          scanned_companies := addSet st.scanned_companies c,
          companies := setKey st.companies c node,
          depth_reached := max st.depth_reached depth,
          events := (st.events ++ [.dequeued c depth]) ++ [.recorded c depth] }) := by
  have hpw := inv.frontierSorted
  rw [hfr, List.pairwise_cons] at hpw
  obtain ⟨hheadrel, hsorted'⟩ := hpw
  have hmemrest : ∀ x ∈ rest, x ∈ st.frontier := by
    intro x hx
    rw [hfr]
    exact List.mem_cons_of_mem _ hx
  have hheadmem : ((c, depth) : String × ℕ) ∈ st.frontier := by
    rw [hfr]
    exact List.mem_cons_self _ _
  have hckeys : c ∉ st.companies.map Prod.fst := by
    rw [inv.keysEq]
    exact hnotsc
  have hsetk : setKey st.companies c node = st.companies ++ [(c, node)] :=
    setKey_fresh hckeys node
  have hadds : addSet st.scanned_companies c = st.scanned_companies ++ [c] :=
    addSet_of_not_mem hnotsc
  have hnone : getKey? st.companies c = none := getKey?_eq_none_of_not_mem hckeys
  obtain ⟨Δf, Δc, hF, hE, hC, hS, hN, hPf, hPc⟩ :=
    foldl_fanExtends (processOfficer f cfg c pname depth)
      (processOfficer_fanExtends f cfg c pname depth) officers
      { st with
        frontier := rest,
        scanned_companies := addSet st.scanned_companies c,
        companies := setKey st.companies c node,
        depth_reached := max st.depth_reached depth,
        events := (st.events ++ [.dequeued c depth]) ++ [.recorded c depth] }
  set st' := officers.foldl (processOfficer f cfg c pname depth)
    { st with
      frontier := rest,
      scanned_companies := addSet st.scanned_companies c,
      companies := setKey st.companies c node,
      depth_reached := max st.depth_reached depth,
      events := (st.events ++ [.dequeued c depth]) ++ [.recorded c depth] }
    with hst'
  simp only at hF hE hC hS hN hPf hPc
  have hPf2 : ∀ x ∈ Δf, x.2 = depth + 1 ∧ x.1 ≠ c ∧ x.1 ∉ st.scanned_companies := by
    intro x hx
    obtain ⟨h2, h1⟩ := hPf x hx
    rw [hadds] at h1
    refine ⟨h2, ?_, ?_⟩
    · intro he
      exact h1 (List.mem_append_right _ (by rw [he]; exact List.mem_singleton_self c))
    · intro he
      exact h1 (List.mem_append_left _ he)
  have hrecE : ∀ c' d', Event.recorded c' d' ∈ st'.events ↔
      (Event.recorded c' d' ∈ st.events ∨ (c' = c ∧ d' = depth)) := by
    intro c' d'
    rw [hE]
    constructor
    · intro h
      rcases List.mem_append.mp h with h | h
      · rcases List.mem_append.mp h with h | h
        · rcases List.mem_append.mp h with h | h
          · exact Or.inl h
          · simp at h
        · rw [List.mem_singleton] at h
          injection h with h1 h2
          exact Or.inr ⟨h1, h2⟩
      · obtain ⟨x, _, hx⟩ := mem_enqueued_of_mem_map h
        cases hx
    · intro h
      rcases h with h | ⟨h1, h2⟩
      · exact List.mem_append_left _ (List.mem_append_left _ (List.mem_append_left _ h))
      · subst h1
        subst h2
        exact List.mem_append_left _ (List.mem_append_right _ (List.mem_singleton_self _))
  have henqE : ∀ c' k, Event.enqueued c' k ∈ st'.events ↔
      (Event.enqueued c' k ∈ st.events ∨ ((c', k) : String × ℕ) ∈ Δf) := by
    intro c' k
    rw [hE]
    constructor
    · intro h
      rcases List.mem_append.mp h with h | h
      · rcases List.mem_append.mp h with h | h
        · rcases List.mem_append.mp h with h | h
          · exact Or.inl h
          · simp at h
        · simp at h
      · obtain ⟨x, hxm, hx⟩ := mem_enqueued_of_mem_map h
        injection hx with h1 h2
        refine Or.inr ?_
        have : x = (c', k) := by
          obtain ⟨x1, x2⟩ := x
          simp only at h1 h2
          rw [h1, h2]
        rwa [this] at hxm
    · intro h
      rcases h with h | h
      · exact List.mem_append_left _ (List.mem_append_left _ (List.mem_append_left _ h))
      · refine List.mem_append_right _ ?_
        have : Event.enqueued c' k = Event.enqueued (c', k).1 (c', k).2 := rfl
        rw [this]
        exact List.mem_map_of_mem _ h
  have hdeqE : ∀ c' d', Event.dequeued c' d' ∈ st'.events ↔
      (Event.dequeued c' d' ∈ st.events ∨ (c' = c ∧ d' = depth)) := by
    intro c' d'
    rw [hE]
    constructor
    · intro h
      rcases List.mem_append.mp h with h | h
      · rcases List.mem_append.mp h with h | h
        · rcases List.mem_append.mp h with h | h
          · exact Or.inl h
          · rw [List.mem_singleton] at h
            injection h with h1 h2
            exact Or.inr ⟨h1, h2⟩
        · simp at h
      · obtain ⟨x, _, hx⟩ := mem_enqueued_of_mem_map h
        cases hx
    · intro h
      rcases h with h | ⟨h1, h2⟩
      · exact List.mem_append_left _ (List.mem_append_left _ (List.mem_append_left _ h))
      · subst h1
        subst h2
        exact List.mem_append_left _
          (List.mem_append_left _ (List.mem_append_right _ (List.mem_singleton_self _)))
  have hrecOld : ∀ d', Event.recorded c d' ∈ st.events → False := by
    intro d' h
    obtain ⟨n, hkey, _⟩ := (inv.recMap c d').mp h
    rw [hnone] at hkey
    cases hkey
  have hcmp' : st'.companies = st.companies ++ [(c, node)] := by
    rw [hC]
    exact hsetk
  have hsc' : st'.scanned_companies = st.scanned_companies ++ [c] := by
    rw [hS]
    exact hadds
  constructor
  · rw [hF]
    rw [List.pairwise_append]
    refine ⟨hsorted', pairwise_depth_const (fun x hx => (hPf2 x hx).1), ?_⟩
    intro x hx y hy
    have := inv.frontierClose x (hmemrest x hx) (c, depth) hheadmem
    rw [(hPf2 y hy).1]
    exact this
  · rw [hF]
    intro x hx y hy
    rcases List.mem_append.mp hx with hx | hx <;>
      rcases List.mem_append.mp hy with hy | hy
    · exact inv.frontierClose x (hmemrest x hx) y (hmemrest y hy)
    · rw [(hPf2 y hy).1]
      have := inv.frontierClose x (hmemrest x hx) (c, depth) hheadmem
      omega
    · rw [(hPf2 x hx).1]
      have := hheadrel y hy
      simp only at this
      omega
    · rw [(hPf2 x hx).1, (hPf2 y hy).1]
      omega
  · rw [hcmp', hsc']
    simp [inv.keysEq]
  · rw [hsc', List.length_append]
    simp only [List.length_singleton]
    omega
  · intro conn hconn
    rw [hN] at hconn
    rcases List.mem_append.mp hconn with h | h
    · obtain ⟨n, hkey, hd⟩ := inv.connDepth conn h
      exact ⟨n, by rw [hcmp']; exact getKey?_append_left hkey _, hd⟩
    · obtain ⟨hcn, hcd⟩ := hPc conn h
      refine ⟨node, ?_, by rw [hnode, hcd]⟩
      rw [hcmp', hcn]
      exact getKey?_snoc_self hckeys node
  · intro c' d
    rw [hrecE]
    constructor
    · intro h
      rcases h with h | ⟨h1, h2⟩
      · obtain ⟨n, hkey, hd⟩ := (inv.recMap c' d).mp h
        exact ⟨n, by rw [hcmp']; exact getKey?_append_left hkey _, hd⟩
      · subst h1
        subst h2
        refine ⟨node, ?_, hnode⟩
        rw [hcmp']
        exact getKey?_snoc_self hckeys node
    · intro ⟨n, hkey, hd⟩
      rw [hcmp'] at hkey
      by_cases hc' : c' = c
      · subst hc'
        rw [getKey?_append_of_none hnone, getKey?] at hkey
        rw [if_pos rfl] at hkey
        injection hkey with hk
        subst hk
        exact Or.inr ⟨rfl, by rw [← hd, hnode]⟩
      · rw [getKey?_snoc_other hc' node] at hkey
        exact Or.inl ((inv.recMap c' d).mpr ⟨n, hkey, hd⟩)
  · intro c'
    rw [hE]
    rw [List.countP_append, List.countP_append, List.countP_append]
    have hmap0 : List.countP (fun e => isRecordOf c' e)
        (Δf.map (fun x => Event.enqueued x.1 x.2)) = 0 := by
      rw [List.countP_eq_zero]
      intro e he
      obtain ⟨x, _, rfl⟩ := mem_enqueued_of_mem_map he
      simp [isRecordOf]
    have hdeq0 : List.countP (fun e => isRecordOf c' e) [Event.dequeued c depth] = 0 := by
      simp [isRecordOf]
    by_cases hc' : c' = c
    · subst hc'
      have hev0 : List.countP (fun e => isRecordOf c' e) st.events = 0 := by
        rw [List.countP_eq_zero]
        intro e he hrec
        cases e with
        | recorded c2 d2 =>
          have : c2 = c' := by simpa [isRecordOf] using hrec
          subst this
          exact hrecOld d2 he
        | dequeued c2 d2 => simp [isRecordOf] at hrec
        | enqueued c2 d2 => simp [isRecordOf] at hrec
      rw [hev0, hmap0, hdeq0]
      simp [isRecordOf, List.countP_cons, List.countP_nil]
    · have hcc : ¬ c = c' := fun h => hc' h.symm
      have hrec0 : List.countP (fun e => isRecordOf c' e) [Event.recorded c depth] = 0 := by
        simp [isRecordOf, List.countP_cons, List.countP_nil, hcc]
      rw [hrec0, hmap0, hdeq0]
      have := inv.recOnce c'
      omega
  · intro c' d h
    rw [hdeqE] at h
    rcases h with h | ⟨h1, h2⟩
    · rcases inv.deqElig c' d h with h | h
      · refine Or.inl ?_
        rw [hsc']
        exact List.mem_append_left _ h
      · exact Or.inr h
    · refine Or.inl ?_
      rw [hsc', h1]
      exact List.mem_append_right _ (List.mem_singleton_self c)
  · intro c' d'
    have hq := inv.queueCount c' d'
    rw [hfr] at hq
    rw [hE, hF]
    simp only [List.count_append, count_map_enqueued]
    have he1 : List.count (Event.enqueued c' d') [Event.dequeued c depth] = 0 := by
      simp
    have he2 : List.count (Event.enqueued c' d') [Event.recorded c depth] = 0 := by
      simp
    have hd1 : List.count (Event.dequeued c' d') [Event.dequeued c depth] =
        if c = c' ∧ depth = d' then 1 else 0 := by
      by_cases h1 : c = c' <;> by_cases h2 : depth = d' <;>
        simp [List.count_cons, List.count_nil, h1, h2]
    have hd2 : List.count (Event.dequeued c' d') [Event.recorded c depth] = 0 := by
      simp
    have hd3 : List.count (Event.dequeued c' d')
        (Δf.map (fun x => Event.enqueued x.1 x.2)) = 0 := by
      rw [List.count_eq_zero]
      intro hmem
      obtain ⟨x, _, hx⟩ := mem_enqueued_of_mem_map hmem
      cases hx
    have hc : List.count ((c', d') : String × ℕ) ((c, depth) :: rest) =
        List.count (c', d') rest + (if c = c' ∧ depth = d' then 1 else 0) := by
      rw [List.count_cons]
      congr 1
      by_cases h1 : c = c' <;> by_cases h2 : depth = d' <;>
        simp [List.count_cons, List.count_nil, h1, h2]
    rw [hc] at hq
    rw [he1, he2, hd1, hd2, hd3]
    omega
  · intro c' d h x hx
    rw [hF] at hx
    rw [hrecE] at h
    rcases List.mem_append.mp hx with hx | hx
    · rcases h with h | ⟨h1, h2⟩
      · exact inv.recFrontier c' d h x (hmemrest x hx)
      · subst h2
        exact hheadrel x hx
    · rw [(hPf2 x hx).1]
      rcases h with h | ⟨h1, h2⟩
      · have := inv.recFrontier c' d h (c, depth) hheadmem
        simp only at this
        omega
      · omega
  · intro c' d h k hk
    rw [hrecE] at h
    rw [henqE] at hk
    rcases h with h | ⟨h1, h2⟩
    · rcases hk with hk | hk
      · exact inv.minEnq c' d h k hk
      · exfalso
        obtain ⟨n, hkey, _⟩ := (inv.recMap c' d).mp h
        have hmem : c' ∈ st.scanned_companies := by
          rw [← inv.keysEq]
          exact getKey?_mem_keys hkey
        have := (hPf2 (c', k) hk).2.2
        exact this hmem
    · rw [h2]
      rw [h1] at hk
      rcases hk with hk | hk
      · have hpos : 0 < st.events.count (Event.enqueued c k) :=
          List.count_pos_iff.mpr hk
        have hq := inv.queueCount c k
        rw [hfr] at hq
        by_cases hdq : Event.dequeued c k ∈ st.events
        · rcases inv.deqElig c k hdq with h | h | h
          · exact absurd h hnotsc
          · omega
          · rw [helig] at h
            cases h
        · have hdq0 : st.events.count (Event.dequeued c k) = 0 :=
            List.count_eq_zero.mpr hdq
          have hfpos : 0 < List.count ((c, k) : String × ℕ) ((c, depth) :: rest) := by
            omega
          have hfm : ((c, k) : String × ℕ) ∈ (c, depth) :: rest :=
            List.count_pos_iff.mp hfpos
          rcases List.mem_cons.mp hfm with h | h
          · injection h with _ h2
            omega
          · have := hheadrel _ h
            simp only at this
            exact this
      · have hk2 := (hPf2 (c, k) hk).1
        simp only at hk2
        omega
  · intro c' d h
    rw [hrecE] at h
    rw [henqE]
    rcases h with h | ⟨h1, h2⟩
    · exact Or.inl (inv.recHasEnq c' d h)
    · refine Or.inl ?_
      rw [h1, h2]
      exact inv.frontierEnq (c, depth) hheadmem
  · intro x hx
    rw [hF] at hx
    rw [henqE]
    rcases List.mem_append.mp hx with hx | hx
    · exact Or.inl (inv.frontierEnq x (hmemrest x hx))
    · refine Or.inr ?_
      obtain ⟨x1, x2⟩ := x
      exact hx
  · rw [hE, deqDepths_append, deqDepths_append, deqDepths_append,
      deqDepths_dequeued, deqDepths_recorded, deqDepths_map_enq,
      List.append_nil, List.append_nil]
    rw [List.chain'_append]
    refine ⟨inv.deqChain, List.chain'_singleton _, ?_⟩
    intro x hx y hy
    simp only [List.head?_cons, Option.mem_def, Option.some.injEq] at hy
    subst hy
    exact inv.deqLast x hx (c, depth) hheadmem
  · intro d₀ hlast x hx
    rw [hE, deqDepths_append, deqDepths_append, deqDepths_append,
      deqDepths_dequeued, deqDepths_recorded, deqDepths_map_enq,
      List.append_nil, List.append_nil, List.getLast?_concat] at hlast
    injection hlast with h1
    subst h1
    rw [hF] at hx
    rcases List.mem_append.mp hx with hx | hx
    · exact hheadrel x hx
    · rw [(hPf2 x hx).1]
      omega
  · intro c' hc'
    rw [hsc'] at hc'
    rcases List.mem_append.mp hc' with h | h
    · exact inv.recElig c' h
    · rw [List.mem_singleton] at h
      subst h
      exact helig
  · intro c' k hk
    rw [henqE] at hk
    rcases hk with hk | hk
    · rcases inv.enqFrom c' k hk with h | ⟨h1, x, h2⟩
      · exact Or.inl h
      · refine Or.inr ⟨h1, x, ?_⟩
        rw [hdeqE]
        exact Or.inl h2
    · have hk2 := (hPf2 (c', k) hk).1
      simp only at hk2
      refine Or.inr ⟨by omega, c, ?_⟩
      rw [hdeqE]
      exact Or.inr ⟨rfl, by omega⟩

/-- One loop iteration preserves the crawl invariant. -/
theorem scanStep_inv {f : Facade} {cfg : Config} {seeds : List String}
    {st st' : ScanState} (inv : ScanInv f cfg seeds st)
    (h : scanStep f cfg st = some st') : ScanInv f cfg seeds st' := by
  rw [scanStep] at h
  split at h
  · cases h
  · next c depth rest hfr =>
    split at h
    · cases h
    · next hcap =>
      dsimp only at h
      have hcap' : st.scanned_companies.length < cfg.max_companies :=
        Nat.lt_of_not_le hcap
      split at h
      · next hguard =>
        injection h with h'
        subst h'
        refine scanInv_dequeue_only inv hfr ?_
        rcases hguard with hg | hg
        · exact Or.inl hg
        · exact Or.inr (Or.inl hg)
      · next hguard =>
        injection h with h'
        subst h'
        push_neg at hguard
        obtain ⟨hnotsc, hdep⟩ := hguard
        rw [expandCompany]
        split
        · next e hprof =>
          refine scanInv_dequeue_only inv hfr (Or.inr (Or.inr ?_))
          simp [eligible, hprof]
        · next profile hprof =>
          split
          · next hact =>
            refine scanInv_dequeue_only inv hfr (Or.inr (Or.inr ?_))
            simp only [eligible, hprof]
            rw [if_pos hact]
          · next hact =>
            split
            · next e hoff =>
              refine scanInv_dequeue_only inv hfr (Or.inr (Or.inr ?_))
              simp only [eligible, hprof, hoff]
              rw [if_neg hact]
            · next officers0 hoff =>
              have helig : eligible f cfg c = true := by
                simp only [eligible, hprof, hoff]
                rw [if_neg hact]
              exact scanInv_expand inv hfr hnotsc hdep hcap' helig
                profile.company_name _ rfl

theorem count_enq_init (seeds : List String) (c : String) (d : ℕ) :
    (seeds.map (fun s => Event.enqueued s 0)).count (Event.enqueued c d) =
      (seeds.map (fun s => (s, 0))).count (c, d) := by
  induction seeds with
  | nil => rfl
  | cons a t ih =>
    rw [List.map_cons, List.map_cons, List.count_cons, List.count_cons, ih]
    congr 1
    by_cases h1 : a = c
    · by_cases h2 : (0 : ℕ) = d
      · simp [h1, ← h2]
      · have h2' : ¬ d = 0 := fun hh => h2 hh.symm
        simp [h1, h2']
    · simp [h1]

/-- The initial crawl state satisfies the invariant. -/
theorem scanInv_init (f : Facade) (cfg : Config) (seeds : List String) :
    ScanInv f cfg seeds (initState seeds) := by
  have hfr : (initState seeds).frontier = seeds.map (fun s => (s, 0)) := rfl
  have hev : (initState seeds).events = seeds.map (fun s => Event.enqueued s 0) := rfl
  have hmemfr : ∀ x ∈ (initState seeds).frontier, x.2 = 0 := by
    intro x hx
    rw [hfr] at hx
    obtain ⟨s, _, rfl⟩ := List.mem_map.mp hx
    rfl
  have hnorec : ∀ c d, Event.recorded c d ∉ (initState seeds).events := by
    intro c d hmem
    rw [hev] at hmem
    obtain ⟨s, _, he⟩ := List.mem_map.mp hmem
    cases he
  have hnodeq : ∀ c d, Event.dequeued c d ∉ (initState seeds).events := by
    intro c d hmem
    rw [hev] at hmem
    obtain ⟨s, _, he⟩ := List.mem_map.mp hmem
    cases he
  constructor
  · exact pairwise_depth_const hmemfr
  · intro x hx y hy
    rw [hmemfr x hx]
    omega
  · rfl
  · exact Nat.zero_le _
  · intro conn hconn
    cases hconn
  · intro c d
    constructor
    · intro hmem
      exact absurd hmem (hnorec c d)
    · intro ⟨n, hkey, _⟩
      cases hkey
  · intro c
    rw [List.countP_eq_zero.mpr ?_]
    · omega
    · intro e he hrec
      rw [hev] at he
      obtain ⟨s, _, rfl⟩ := List.mem_map.mp he
      simp [isRecordOf] at hrec
  · intro c d hmem
    exact absurd hmem (hnodeq c d)
  · intro c d
    have hd : (initState seeds).events.count (Event.dequeued c d) = 0 :=
      List.count_eq_zero.mpr (hnodeq c d)
    rw [hd, hev, hfr, count_enq_init, Nat.zero_add]
  · intro c d hmem
    exact absurd hmem (hnorec c d)
  · intro c d hmem
    exact absurd hmem (hnorec c d)
  · intro c d hmem
    exact absurd hmem (hnorec c d)
  · intro x hx
    rw [hfr] at hx
    obtain ⟨s, hs, rfl⟩ := List.mem_map.mp hx
    rw [hev]
    exact List.mem_map_of_mem _ hs
  · have : deqDepths (initState seeds).events = [] := by
      rw [hev]
      induction seeds with
      | nil => rfl
      | cons a t ih =>
        rw [List.map_cons]
        simpa [deqDepths, List.filterMap_cons] using ih
    rw [this]
    exact List.chain'_nil
  · intro d₀ hlast x hx
    have : deqDepths (initState seeds).events = [] := by
      rw [hev]
      induction seeds with
      | nil => rfl
      | cons a t ih =>
        rw [List.map_cons]
        simpa [deqDepths, List.filterMap_cons] using ih
    rw [this] at hlast
    cases hlast
  · intro c hc
    cases hc
  · intro c k hk
    rw [hev] at hk
    obtain ⟨s, hs, he⟩ := List.mem_map.mp hk
    injection he with h1 h2
    subst h1
    exact Or.inl ⟨h2.symm, hs⟩

/-- The crawl invariant holds after any number of loop iterations. -/
theorem scanLoop_inv (f : Facade) (cfg : Config) (seeds : List String) :
    ∀ (fuel : ℕ) (st : ScanState), ScanInv f cfg seeds st →
      ScanInv f cfg seeds (scanLoop f cfg fuel st) := by
  intro fuel
  induction fuel with
  | zero => intro st inv; exact inv
  | succ n ih =>
    intro st inv
    rw [scanLoop]
    cases h : scanStep f cfg st with
    | none => exact inv
    | some st2 => exact ih st2 (scanStep_inv inv h)

/-- The crawl invariant holds for `scanNetworkState` at every fuel. -/
theorem scanNetworkState_inv (f : Facade) (cfg : Config) (seeds : List String)
    (fuel : ℕ) : ScanInv f cfg seeds (scanNetworkState f cfg seeds fuel) :=
  scanLoop_inv f cfg seeds fuel _ (scanInv_init f cfg seeds)

/-! ### Cluster lemmas (claim C8) -/

theorem getKey?_setKey_self {β : Type} (m : List (String × β)) (k : String)
    (v : β) : getKey? (setKey m k v) k = some v := by
  induction m with
  | nil => simp [setKey, getKey?]
  | cons kv rest ih =>
    obtain ⟨a, b⟩ := kv
    rw [setKey]
    by_cases h : a = k
    · rw [if_pos h, getKey?, if_pos rfl]
    · rw [if_neg h, getKey?, if_neg h]
      exact ih

theorem getKey?_setKey_other {β : Type} (m : List (String × β)) (k k' : String)
    (v : β) (h : k' ≠ k) : getKey? (setKey m k v) k' = getKey? m k' := by
  induction m with
  | nil =>
    rw [setKey]
    simp only [getKey?]
    rw [if_neg (fun hh => h hh.symm)]
  | cons kv rest ih =>
    obtain ⟨a, b⟩ := kv
    rw [setKey]
    by_cases ha : a = k
    · have ha' : ¬ a = k' := by rw [ha]; exact fun hh => h hh.symm
      rw [if_pos ha, getKey?, if_neg (fun hh => h hh.symm), getKey?, if_neg ha']
    · rw [if_neg ha, getKey?, getKey?]
      by_cases ha2 : a = k'
      · rw [if_pos ha2, if_pos ha2]
      · rw [if_neg ha2, if_neg ha2]
        exact ih

theorem mem_neighborsOf_addEdge {g : List (String × List String)}
    {a b x y : String} (hy : y ∈ neighborsOf (addEdge g a b) x) :
    y ∈ neighborsOf g x ∨ (x = a ∧ y = b) := by
  by_cases hx : x = a
  · subst hx
    simp only [neighborsOf, addEdge, getKey?_setKey_self, Option.getD_some] at hy
    by_cases hb : b ∈ (getKey? g x).getD []
    · rw [if_pos hb] at hy
      exact Or.inl (by simpa [neighborsOf] using hy)
    · rw [if_neg hb] at hy
      rcases List.mem_append.mp hy with hy | hy
      · exact Or.inl (by simpa [neighborsOf] using hy)
      · rw [List.mem_singleton] at hy
        exact Or.inr ⟨rfl, hy⟩
  · simp only [neighborsOf, addEdge] at hy ⊢
    rw [getKey?_setKey_other _ _ _ _ hx] at hy
    exact Or.inl hy

theorem sharesDirector_symm {conns : List Connection} {a b : String}
    (h : sharesDirector conns a b) : sharesDirector conns b a := by
  obtain ⟨hne, d, h1, h2⟩ := h
  exact ⟨hne.symm, d, h2, h1⟩

theorem reflTransGen_of_symm {r : String → String → Prop}
    (hs : ∀ x y, r x y → r y x) {a b : String}
    (h : Relation.ReflTransGen r a b) : Relation.ReflTransGen r b a := by
  induction h with
  | refl => exact Relation.ReflTransGen.refl
  | tail _ hlast ih =>
    exact Relation.ReflTransGen.trans
      (Relation.ReflTransGen.single (hs _ _ hlast)) ih

theorem edgeOK_addEdge {conns : List Connection}
    {g : List (String × List String)}
    (hg : ∀ x y, y ∈ neighborsOf g x → sharesDirector conns x y) {a b : String}
    (hab : sharesDirector conns a b) :
    ∀ x y, y ∈ neighborsOf (addEdge g a b) x → sharesDirector conns x y := by
  intro x y hy
  rcases mem_neighborsOf_addEdge hy with h | ⟨hx, hyb⟩
  · exact hg x y h
  · subst hx; subst hyb; exact hab

theorem edgeOK_related_fold (conns : List Connection) (conn : Connection)
    (hconn : conn ∈ conns) :
    ∀ (related : List String),
      (∀ r ∈ related, ∃ c2 ∈ conns, c2.company_number = r ∧
        c2.director_id = conn.director_id) →
      ∀ g, (∀ x y, y ∈ neighborsOf g x → sharesDirector conns x y) →
      ∀ x y, y ∈ neighborsOf
          (related.foldl (fun g r =>
            if r = conn.company_number then g
            else addEdge g conn.company_number r) g) x →
        sharesDirector conns x y := by
  intro related
  induction related with
  | nil => intro _ g hg; exact hg
  | cons r t ih =>
    intro hrel g hg
    rw [List.foldl_cons]
    apply ih (fun x hx => hrel x (List.mem_cons_of_mem _ hx))
    by_cases h : r = conn.company_number
    · rw [if_pos h]; exact hg
    · rw [if_neg h]
      apply edgeOK_addEdge hg
      obtain ⟨c2, hc2, hcn, hdir⟩ := hrel r (List.mem_cons_self _ _)
      exact ⟨fun he => h he.symm, conn.director_id,
        ⟨conn, hconn, rfl, rfl⟩, ⟨c2, hc2, hcn, hdir⟩⟩

theorem buildGraph_sound (conns : List Connection) :
    ∀ x y, y ∈ neighborsOf (buildGraph conns) x → sharesDirector conns x y := by
  have haux : ∀ (l : List Connection), (∀ c ∈ l, c ∈ conns) →
      ∀ g, (∀ x y, y ∈ neighborsOf g x → sharesDirector conns x y) →
      ∀ x y, y ∈ neighborsOf (l.foldl
        (fun g conn =>
          let related :=
            (conns.filter (fun c2 => c2.director_id == conn.director_id)).map
              (fun c2 => c2.company_number)
          related.foldl
            (fun g r => if r = conn.company_number then g
              else addEdge g conn.company_number r)
            g) g) x →
      sharesDirector conns x y := by
    intro l
    induction l with
    | nil => intro _ g hg; exact hg
    | cons conn t ih =>
      intro hl g hg
      rw [List.foldl_cons]
      apply ih (fun c hc => hl c (List.mem_cons_of_mem _ hc))
      apply edgeOK_related_fold conns conn (hl conn (List.mem_cons_self _ _)) _ ?_ g hg
      intro r hr
      obtain ⟨c2, hc2, rfl⟩ := List.mem_map.mp hr
      obtain ⟨hc2mem, hdir⟩ := List.mem_filter.mp hc2
      rw [beq_iff_eq] at hdir
      exact ⟨c2, hc2mem, rfl, hdir⟩
  intro x y hy
  refine haux conns (fun c hc => hc) [] ?_ x y (by rw [buildGraph] at hy; exact hy)
  intro x y hy
  simp [neighborsOf, getKey?] at hy

theorem dfsStack_sound (g : List (String × List String)) (root : String) :
    ∀ (fuel : ℕ) (stack visited cluster : List String),
      (∀ n ∈ stack,
        Relation.ReflTransGen (fun a b => b ∈ neighborsOf g a) root n) →
      (∀ n ∈ cluster,
        Relation.ReflTransGen (fun a b => b ∈ neighborsOf g a) root n) →
      ∀ m ∈ (dfsStack g fuel stack visited cluster).2,
        Relation.ReflTransGen (fun a b => b ∈ neighborsOf g a) root m := by
  intro fuel
  induction fuel with
  | zero => intro stack visited cluster _ hcl m hm; exact hcl m hm
  | succ k ih =>
    intro stack visited cluster hst hcl m hm
    cases stack with
    | nil => exact hcl m hm
    | cons n rest =>
      rw [show dfsStack g (k + 1) (n :: rest) visited cluster =
          if n ∈ visited then dfsStack g k rest visited cluster
          else dfsStack g k (neighborsOf g n ++ rest) (visited ++ [n])
            (cluster ++ [n]) from rfl] at hm
      by_cases hv : n ∈ visited
      · rw [if_pos hv] at hm
        exact ih rest visited cluster
          (fun x hx => hst x (List.mem_cons_of_mem _ hx)) hcl m hm
      · rw [if_neg hv] at hm
        refine ih _ _ _ ?_ ?_ m hm
        · intro x hx
          rcases List.mem_append.mp hx with hx | hx
          · exact Relation.ReflTransGen.tail (hst n (List.mem_cons_self _ _)) hx
          · exact hst x (List.mem_cons_of_mem _ hx)
        · intro x hx
          rcases List.mem_append.mp hx with hx | hx
          · exact hcl x hx
          · rw [List.mem_singleton] at hx
            rw [hx]
            exact hst n (List.mem_cons_self _ _)

theorem clustersFold_ok (conns : List Connection)
    (g : List (String × List String))
    (hg : ∀ x y, y ∈ neighborsOf g x → sharesDirector conns x y) (fuel : ℕ) :
    ∀ (l : List (String × CompanyNode))
      (acc : List String × List (List String)),
      (∀ cl ∈ acc.2, 2 ≤ cl.length ∧ ∀ a ∈ cl, ∀ b ∈ cl,
        Relation.ReflTransGen (sharesDirector conns) a b) →
      ∀ cl ∈ (l.foldl
          (fun (acc : List String × List (List String)) kv =>
            if kv.1 ∈ acc.1 then acc
            else
              let vc := dfsStack g fuel [kv.1] acc.1 []
              if 1 < vc.2.length then (vc.1, acc.2 ++ [vc.2])
              else (vc.1, acc.2)) acc).2,
        2 ≤ cl.length ∧ ∀ a ∈ cl, ∀ b ∈ cl,
          Relation.ReflTransGen (sharesDirector conns) a b := by
  have hstep : ∀ (acc : List String × List (List String))
      (kv : String × CompanyNode),
      (∀ cl ∈ acc.2, 2 ≤ cl.length ∧ ∀ a ∈ cl, ∀ b ∈ cl,
        Relation.ReflTransGen (sharesDirector conns) a b) →
      ∀ cl ∈ ((fun (acc : List String × List (List String)) kv =>
            if kv.1 ∈ acc.1 then acc
            else
              let vc := dfsStack g fuel [kv.1] acc.1 []
              if 1 < vc.2.length then (vc.1, acc.2 ++ [vc.2])
              else (vc.1, acc.2)) acc kv).2,
        2 ≤ cl.length ∧ ∀ a ∈ cl, ∀ b ∈ cl,
          Relation.ReflTransGen (sharesDirector conns) a b := by
    intro acc kv hacc
    dsimp only
    by_cases hv : kv.1 ∈ acc.1
    · rw [if_pos hv]; exact hacc
    · rw [if_neg hv]
      by_cases hlen : 1 < (dfsStack g fuel [kv.1] acc.1 []).2.length
      · rw [if_pos hlen]
        intro cl hcl
        rcases List.mem_append.mp hcl with hcl | hcl
        · exact hacc cl hcl
        · rw [List.mem_singleton] at hcl
          subst hcl
          have hreach : ∀ m ∈ (dfsStack g fuel [kv.1] acc.1 []).2,
              Relation.ReflTransGen (fun a b => b ∈ neighborsOf g a) kv.1 m := by
            refine dfsStack_sound g kv.1 fuel [kv.1] acc.1 [] ?_ ?_
            · intro n hn
              rw [List.mem_singleton] at hn
              subst hn
              exact Relation.ReflTransGen.refl
            · intro n hn
              cases hn
          have hreachS : ∀ m ∈ (dfsStack g fuel [kv.1] acc.1 []).2,
              Relation.ReflTransGen (sharesDirector conns) kv.1 m :=
            fun m hm =>
              Relation.ReflTransGen.mono (fun a b hab => hg a b hab) (hreach m hm)
          refine ⟨by omega, ?_⟩
          intro a ha b hb
          exact Relation.ReflTransGen.trans
            (reflTransGen_of_symm (fun x y h => sharesDirector_symm h)
              (hreachS a ha))
            (hreachS b hb)
      · rw [if_neg hlen]
        exact hacc
  intro l
  induction l with
  | nil => intro acc hacc; exact hacc
  | cons kv t ih =>
    intro acc hacc
    rw [List.foldl_cons]
    exact ih _ (hstep acc kv hacc)

theorem mem_insertClusterDesc {x z : List String} {l : List (List String)} :
    z ∈ insertClusterDesc x l ↔ z = x ∨ z ∈ l := by
  induction l with
  | nil => simp [insertClusterDesc]
  | cons y t ih =>
    rw [insertClusterDesc]
    by_cases h : y.length ≤ x.length
    · rw [if_pos h]
      simp [List.mem_cons, or_left_comm]
    · rw [if_neg h]
      rw [List.mem_cons, ih, List.mem_cons]
      tauto

theorem mem_sortClustersDesc {z : List String} {l : List (List String)} :
    z ∈ sortClustersDesc l ↔ z ∈ l := by
  induction l with
  | nil => simp [sortClustersDesc]
  | cons a t ih =>
    have hrw : sortClustersDesc (a :: t) = insertClusterDesc a (sortClustersDesc t) :=
      rfl
    rw [hrw, mem_insertClusterDesc, ih, List.mem_cons]

theorem pairwise_insertClusterDesc {l : List (List String)} {x : List String}
    (hl : l.Pairwise (fun a b => b.length ≤ a.length)) :
    (insertClusterDesc x l).Pairwise (fun a b => b.length ≤ a.length) := by
  induction l with
  | nil => simp [insertClusterDesc]
  | cons y t ih =>
    rw [insertClusterDesc]
    rw [List.pairwise_cons] at hl
    obtain ⟨hy, ht⟩ := hl
    by_cases h : y.length ≤ x.length
    · rw [if_pos h, List.pairwise_cons]
      constructor
      · intro z hz
        rcases List.mem_cons.mp hz with hz | hz
        · rw [hz]; exact h
        · exact le_trans (hy z hz) h
      · exact List.Pairwise.cons hy ht
    · rw [if_neg h, List.pairwise_cons]
      constructor
      · intro z hz
        rcases mem_insertClusterDesc.mp hz with hz | hz
        · rw [hz]; omega
        · exact hy z hz
      · exact ih ht

theorem pairwise_sortClustersDesc (l : List (List String)) :
    (sortClustersDesc l).Pairwise (fun a b => b.length ≤ a.length) := by
  induction l with
  | nil => exact List.Pairwise.nil
  | cons a t ih =>
    have hrw : sortClustersDesc (a :: t) = insertClusterDesc a (sortClustersDesc t) :=
      rfl
    rw [hrw]
    exact pairwise_insertClusterDesc ih

theorem filter_insertClusterDesc_pos {x : List String} {l : List (List String)} :
    (insertClusterDesc x l).filter (fun cl => cl.length == x.length) =
      x :: l.filter (fun cl => cl.length == x.length) := by
  induction l with
  | nil => simp [insertClusterDesc]
  | cons y t ih =>
    rw [insertClusterDesc]
    by_cases h : y.length ≤ x.length
    · rw [if_pos h, List.filter_cons, if_pos (by simp)]
    · rw [if_neg h]
      have hne : (y.length == x.length) = false := by
        rw [beq_eq_false_iff_ne]
        omega
      rw [List.filter_cons, List.filter_cons, hne]
      simp only [Bool.false_eq_true, if_false]
      exact ih

theorem filter_insertClusterDesc_neg {x : List String} {l : List (List String)}
    {k : ℕ} (hx : x.length ≠ k) :
    (insertClusterDesc x l).filter (fun cl => cl.length == k) =
      l.filter (fun cl => cl.length == k) := by
  have hxf : (x.length == k) = false := by rw [beq_eq_false_iff_ne]; exact hx
  induction l with
  | nil =>
    rw [insertClusterDesc, List.filter_cons, hxf]
    simp
  | cons y t ih =>
    rw [insertClusterDesc]
    by_cases h : y.length ≤ x.length
    · rw [if_pos h, List.filter_cons, hxf]
      simp only [Bool.false_eq_true, if_false]
    · rw [if_neg h, List.filter_cons, List.filter_cons]
      by_cases hy : (y.length == k) = true
      · rw [hy, if_pos rfl, if_pos rfl, ih]
      · rw [Bool.not_eq_true] at hy
        rw [hy]
        simp only [Bool.false_eq_true, if_false]
        exact ih

theorem filter_sortClustersDesc (l : List (List String)) (k : ℕ) :
    (sortClustersDesc l).filter (fun cl => cl.length == k) =
      l.filter (fun cl => cl.length == k) := by
  induction l with
  | nil => rfl
  | cons a t ih =>
    have hrw : sortClustersDesc (a :: t) = insertClusterDesc a (sortClustersDesc t) :=
      rfl
    rw [hrw]
    by_cases h : a.length = k
    · subst h
      rw [filter_insertClusterDesc_pos, ih, List.filter_cons, if_pos (by simp)]
    · rw [filter_insertClusterDesc_neg h, ih, List.filter_cons,
        if_neg (by simp [h])]

/-! ### Claim theorems for the crawl (C1, C3, C4, C5, C9, C10) -/

/-- Claim C1, counterexample to the claim as stated: against `collisionFacade`
the officer-identity keys of company `A`'s officer `X_1` (appointed `2`) and
company `B`'s officer `X` (appointed `1_2`) collide on `"X_1_2"`, so `B`'s
officer is never searched and company `C` — reachable in 2 officer hops via
`B` — is recorded with depth 3 (found via `A → D → E → C`), not the minimum
hop count 2. -/
theorem recorded_depth_claim_false :
    (getKey? (scanNetworkState collisionFacade cfgC1 ["A"] 20).companies "C").map
        CompanyNode.depth = some 3 ∧
      specMinOfficerHops collisionFacade cfgC1 ["A"] "C" = some 2 ∧
      (3 : ℕ) ≠ 2 := by
  decide

/-- Claim C1, amended: in every snapshot, a recorded company's `depth` field is
the minimum over all depths at which that company was ever enqueued during the
crawl; every enqueue is either a seed at depth 0 or at one more than the depth
of some dequeued item; and the dequeue depths form a non-decreasing (FIFO)
sequence.  (The depth need not equal the *static* minimum officer-hop distance:
the visited-officer set can suppress the search that would discover the shorter
path, see `recorded_depth_claim_false`.) -/
theorem recorded_depth_min_enqueued (f : Facade) (cfg : Config)
    (seeds : List String) (fuel : ℕ) (c : String) (node : CompanyNode)
    (h : getKey? (scanNetworkState f cfg seeds fuel).companies c = some node) :
    Event.enqueued c node.depth ∈ (scanNetworkState f cfg seeds fuel).events ∧
    (∀ k, Event.enqueued c k ∈ (scanNetworkState f cfg seeds fuel).events →
      node.depth ≤ k) ∧
    ((node.depth = 0 ∧ c ∈ seeds) ∨
      (1 ≤ node.depth ∧ ∃ x, Event.dequeued x (node.depth - 1) ∈
        (scanNetworkState f cfg seeds fuel).events)) ∧
    List.Chain' (· ≤ ·) (deqDepths (scanNetworkState f cfg seeds fuel).events) := by
  have inv := scanNetworkState_inv f cfg seeds fuel
  have hrec : Event.recorded c node.depth ∈ (scanNetworkState f cfg seeds fuel).events :=
    (inv.recMap c node.depth).mpr ⟨node, h, rfl⟩
  have henq := inv.recHasEnq c node.depth hrec
  exact ⟨henq, fun k hk => inv.minEnq c node.depth hrec k hk,
    inv.enqFrom c node.depth henq, inv.deqChain⟩

/-- Witness for the amended claim C1: the seed `A` of the collision facade is
recorded with depth 0, and that depth was indeed enqueued. -/
theorem recorded_depth_min_enqueued_witness :
    Event.enqueued "A"
        (⟨"A", some "A", some "active", some "ltd", some "2020-01-01", 0, 2⟩ :
          CompanyNode).depth ∈
      (scanNetworkState collisionFacade cfgC1 ["A"] 20).events :=
  (recorded_depth_min_enqueued collisionFacade cfgC1 ["A"] 20 "A" _ (by decide)).1

/-- Claim C3: per crawl, each company is expanded (its node recorded, which
happens exactly when the profile and officer fetches are performed to
completion) at most once, however many times it is enqueued. -/
theorem company_expanded_at_most_once (f : Facade) (cfg : Config)
    (seeds : List String) (fuel : ℕ) (c : String) :
    (scanNetworkState f cfg seeds fuel).events.countP (fun e => isRecordOf c e) ≤ 1 :=
  (scanNetworkState_inv f cfg seeds fuel).recOnce c

/-- Claim C4: at every point during and after the crawl the companies map has at
most `max_companies` entries; and in the scenario with `max_companies = 1` and
two eligible seeds, exactly the first seed appears in the final snapshot and the
second seed is never expanded. -/
theorem companies_within_cap :
    (∀ (f : Facade) (cfg : Config) (seeds : List String) (fuel : ℕ),
      (scanNetworkState f cfg seeds fuel).companies.length ≤ cfg.max_companies) ∧
    (scanNetworkState twoSeedFacade cfgC4 ["S1", "S2"] 5).companies.map Prod.fst
        = ["S1"] ∧
    getKey? (scanNetworkState twoSeedFacade cfgC4 ["S1", "S2"] 5).companies "S2"
        = none := by
  refine ⟨?_, by decide, by decide⟩
  intro f cfg seeds fuel
  have inv := scanNetworkState_inv f cfg seeds fuel
  calc (scanNetworkState f cfg seeds fuel).companies.length
      = ((scanNetworkState f cfg seeds fuel).companies.map Prod.fst).length :=
        (List.length_map _ _).symm
    _ = (scanNetworkState f cfg seeds fuel).scanned_companies.length := by
        rw [inv.keysEq]
    _ ≤ cfg.max_companies := inv.cmpBound

/-- Claim C5: any facade failure is caught inside the loop — in the embedding
every facade call returns an `Except` and `scan_network` is a total function on
them — and a company whose expansion fails (profile error, `active_only` status
skip, or officers error, i.e. `eligible = false`) contributes nothing to the
snapshot: it is never recorded and no connection refers to it. -/
theorem failed_item_yields_nothing (f : Facade) (cfg : Config)
    (seeds : List String) (fuel : ℕ) (c : String)
    (hfail : eligible f cfg c = false) :
    getKey? (scanNetworkState f cfg seeds fuel).companies c = none ∧
    ∀ conn ∈ (scanNetworkState f cfg seeds fuel).connections,
      conn.company_number ≠ c := by
  have inv := scanNetworkState_inv f cfg seeds fuel
  have hnone : getKey? (scanNetworkState f cfg seeds fuel).companies c = none := by
    cases hk : getKey? (scanNetworkState f cfg seeds fuel).companies c with
    | none => rfl
    | some node =>
      have hmem := getKey?_mem_keys hk
      rw [inv.keysEq] at hmem
      have helig := inv.recElig c hmem
      rw [hfail] at helig
      cases helig
  refine ⟨hnone, ?_⟩
  intro conn hconn hc
  obtain ⟨node, hk, _⟩ := inv.connDepth conn hconn
  rw [hc, hnone] at hk
  cases hk

/-- Witness for claim C5: company `Q` raises on the profile fetch under
`collisionFacade` and is absent from the snapshot. -/
theorem failed_item_yields_nothing_witness :
    getKey? (scanNetworkState collisionFacade cfgC1 ["A"] 20).companies "Q"
      = none :=
  (failed_item_yields_nothing collisionFacade cfgC1 ["A"] 20 "Q" (by decide)).1

/-- Claim C9: every connection of a snapshot refers to a recorded company and
carries the same depth as that company's node. -/
theorem connection_company_consistent (f : Facade) (cfg : Config)
    (seeds : List String) (fuel : ℕ) (conn : Connection)
    (hconn : conn ∈ (scanNetworkState f cfg seeds fuel).connections) :
    ∃ node,
      getKey? (scanNetworkState f cfg seeds fuel).companies conn.company_number
          = some node ∧
        node.depth = conn.depth :=
  (scanNetworkState_inv f cfg seeds fuel).connDepth conn hconn

/-- Witness for claim C9: the first connection of the collision-facade crawl
(company `A`, officer key `X_1_2`, depth 0) matches the recorded node of `A`. -/
theorem connection_company_consistent_witness :
    ∃ node,
      getKey? (scanNetworkState collisionFacade cfgC1 ["A"] 20).companies
          (⟨"A", some "A", "X_1_2", "X_1", "director", 0⟩ :
            Connection).company_number = some node ∧
        node.depth =
          (⟨"A", some "A", "X_1_2", "X_1", "director", 0⟩ : Connection).depth :=
  connection_company_consistent collisionFacade cfgC1 ["A"] 20 _ (by decide)

/-- Claim C6, counterexample to the claim as stated: the loop at line 161
inspects only `officer_results[:5]`, so with six results whose only
case-insensitive title match is the sixth, the code falls back to the first
(non-matching) result even though a matching result exists in the returned
list. -/
theorem best_match_claim_false :
    (∃ r ∈ sixResults, upcase (r.title.getD "") = upcase "John Smith") ∧
    selectBestMatch "John Smith" sixResults =
      some ⟨some "Alice One", some "/officers/A1/appointments"⟩ ∧
    upcase ((⟨some "Alice One", some "/officers/A1/appointments"⟩ :
        SearchResult).title.getD "") ≠ upcase "John Smith" := by
  decide

/-- Claim C6, amended: on a non-empty result list the crawler selects a
case-insensitive exact title match whenever one exists **among the first five
results**, and otherwise selects the first result (matches beyond position five
are never consulted, see `best_match_claim_false`). -/
theorem best_match_selection (officer_name : String)
    (results : List SearchResult) :
    ((∀ r ∈ results.take 5, upcase (r.title.getD "") ≠ upcase officer_name) →
      selectBestMatch officer_name results = results.head?) ∧
    (∀ r, r ∈ results.take 5 → upcase (r.title.getD "") = upcase officer_name →
      ∃ r', selectBestMatch officer_name results = some r' ∧
        upcase (r'.title.getD "") = upcase officer_name) := by
  constructor
  · intro hall
    cases hf : (results.take 5).find?
        (fun r => upcase (r.title.getD "") == upcase officer_name) with
    | none => simp only [selectBestMatch, hf]
    | some r =>
      have hmem := List.mem_of_find?_eq_some hf
      have hp := List.find?_some hf
      rw [beq_iff_eq] at hp
      exact absurd hp (hall r hmem)
  · intro r hmem heq
    cases hf : (results.take 5).find?
        (fun r => upcase (r.title.getD "") == upcase officer_name) with
    | none =>
      have hno := List.find?_eq_none.mp hf r hmem
      rw [beq_iff_eq] at hno
      exact absurd heq hno
    | some r' =>
      have hp := List.find?_some hf
      rw [beq_iff_eq] at hp
      exact ⟨r', by simp only [selectBestMatch, hf], hp⟩

/-- Witness for the amended claim C6 on a one-element result list whose title
matches. -/
theorem best_match_selection_witness :
    ∃ r', selectBestMatch "Bob" [⟨some "Bob", some "L"⟩] = some r' ∧
      upcase (r'.title.getD "") = upcase "Bob" :=
  (best_match_selection "Bob" [⟨some "Bob", some "L"⟩]).2
    ⟨some "Bob", some "L"⟩ (by decide) (by decide)

/-- Claim C7, counterexample to the claim as stated: under `searchFailFacade`
the seed's officer is processed (its connection is appended) and is eligible for
fan-out (`depth 0 < max_depth`, visited set initially empty), the officer search
raises, and the exception reaches the officer-level handler *before* the
`self.scanned_officers.add(officer_id)` at line 208 — so after the crawl the
visited-officer set is still empty and a later occurrence of the same identity
would trigger a second search. -/
theorem officer_marked_claim_false :
    (⟨"S", some "S", "JOHN DOE_2021", "JOHN DOE", "director", 0⟩ : Connection)
        ∈ (scanNetworkState searchFailFacade cfgC7 ["S"] 5).connections ∧
      (0 : ℕ) < cfgC7.max_depth ∧
      (scanNetworkState searchFailFacade cfgC7 ["S"] 5).scanned_officers = [] := by
  decide

/-- Claim C7, amended: the fan-out marks the officer identity as visited in
every outcome **except** the two paths where the exception escapes to the
officer-level handler before line 208 — a raising `search_officers` call and
the `IndexError` from `match_id.split('/')[-2]` — i.e. whenever
`searchMarks` holds of the facade's responses for that name. -/
theorem officer_marked_when_no_escape (f : Facade) (cfg : Config)
    (oid officer_name : String) (depth : ℕ) (st : ScanState)
    (h : searchMarks f officer_name = true) :
    oid ∈ (officerSearchPhase f cfg oid officer_name depth st).scanned_officers := by
  by_cases hcorp : isCorporateName officer_name = true
  · simp only [officerSearchPhase, if_pos hcorp, markOfficer]
    exact mem_addSet_self _ _
  · simp only [searchMarks, if_neg hcorp] at h
    cases hsearch : f.search_officers officer_name with
    | error e =>
      rw [hsearch] at h
      cases h
    | ok results =>
      rw [hsearch] at h
      simp only [officerSearchPhase, if_neg hcorp, hsearch]
      by_cases hemp : results.isEmpty = true
      · simp only [if_pos hemp, markOfficer]
        exact mem_addSet_self _ _
      · simp only [if_neg hemp] at h ⊢
        cases hbest : selectBestMatch officer_name results with
        | none =>
          simp only [hbest, markOfficer]
          exact mem_addSet_self _ _
        | some r =>
          rw [hbest] at h
          simp only [hbest]
          by_cases hid : r.links_self.getD "" = ""
          · simp only [if_pos hid, markOfficer]
            exact mem_addSet_self _ _
          · simp only [if_neg hid] at h ⊢
            by_cases hlen : (splitSlash (r.links_self.getD "")).length < 2
            · rw [if_pos hlen] at h
              cases h
            · simp only [if_neg hlen]
              cases happt : f.get_officer_appointments
                  ((splitSlash (r.links_self.getD "")).getD
                    ((splitSlash (r.links_self.getD "")).length - 2) "") with
              | error e =>
                simp only [happt, markOfficer]
                exact mem_addSet_self _ _
              | ok appts =>
                simp only [happt, markOfficer]
                exact mem_addSet_self _ _

/-- Witness for the amended claim C7: officer `Y` of the collision facade
searches cleanly, and its identity key lands in the visited set. -/
theorem officer_marked_when_no_escape_witness :
    "Y_" ∈ (officerSearchPhase collisionFacade cfgC1 "Y_" "Y" 0
        (initState [])).scanned_officers :=
  officer_marked_when_no_escape collisionFacade cfgC1 "Y_" "Y" 0 (initState [])
    (by decide)

/-- Claim C8: every cluster returned by `find_company_clusters` has at least
two companies; any two companies of one cluster are mutually reachable through
chains of the shared-director adjacency relation; the returned list is sorted
by descending cluster size; and for each size the clusters of that size appear
exactly as in discovery order (stable tie-break). -/
theorem clusters_spec (net : Network) :
    (∀ cl ∈ find_company_clusters net, 2 ≤ cl.length) ∧
    (∀ cl ∈ find_company_clusters net, ∀ a ∈ cl, ∀ b ∈ cl,
      Relation.ReflTransGen (sharesDirector net.connections) a b) ∧
    (find_company_clusters net).Pairwise (fun x y => y.length ≤ x.length) ∧
    (∀ k : ℕ, (find_company_clusters net).filter (fun cl => cl.length == k) =
      (discoveredClusters net).filter (fun cl => cl.length == k)) := by
  have hdisc : ∀ cl ∈ discoveredClusters net, 2 ≤ cl.length ∧
      ∀ a ∈ cl, ∀ b ∈ cl,
        Relation.ReflTransGen (sharesDirector net.connections) a b := by
    intro cl hcl
    exact clustersFold_ok net.connections (buildGraph net.connections)
      (buildGraph_sound net.connections)
      (totalAdj (buildGraph net.connections) + net.companies.length + 1)
      net.companies ([], []) (by intro cl hcl; cases hcl) cl hcl
  refine ⟨?_, ?_, ?_, ?_⟩
  · intro cl hcl
    exact (hdisc cl (mem_sortClustersDesc.mp hcl)).1
  · intro cl hcl
    exact (hdisc cl (mem_sortClustersDesc.mp hcl)).2
  · exact pairwise_sortClustersDesc _
  · intro k
    exact filter_sortClustersDesc _ k

/-- Witness for claim C8: in the two-company snapshot `netC8` the returned
cluster is `["A", "B"]` and `A` reaches `B` through the shared director. -/
theorem clusters_spec_witness :
    Relation.ReflTransGen (sharesDirector netC8.connections) "A" "B" :=
  (clusters_spec netC8).2.1 ["A", "B"] (by decide) "A" (by decide) "B" (by decide)

/-- Claim C10: two `scan_network` calls with equal arguments produce equal
results whatever visited-set state each `self` instance carries — lines 54–56
reset both sets before they are ever read, so the crawl never consults the
incoming instance state. -/
theorem scan_network_cross_call_independent (f : Facade) (seeds : List String)
    (cfg : Config) (fuel : ℕ) (self1 self2 : Scanner) :
    scan_network f self1 seeds cfg fuel = scan_network f self2 seeds cfg fuel :=
  rfl

end SignalWatch
